import Mathlib

/-!
Verification of the category-graph tool `wikigraphviz.py` (class
`CategoryGraphBot`).  The development shallowly embeds the traversal engine
(`scan_level`), the visual encoder (the inner `node` and `edge` helpers) and
the size limiter (the reduction loop in `run`) as executable Lean functions,
and proves the specification claims about them.

Modelling conventions:
* Python floats are modelled as rationals (`ℚ`).  Wherever the program's
  values are dyadic and inside the binary64 range — every `size`, font
  size, pen width and edge length arising in the runs analysed below —
  binary64 arithmetic is exact and the rational model agrees with it
  verbatim.  The one computation whose operands are not dyadic, the hue
  `11 / 18 * n % 1`, is modelled with explicit binary64 rounding (`fl53`,
  round to nearest, ties to even, 53-bit significand).
* A category is identified by its title string; the category source is a
  function from a title to the list of its subcategory titles, plus the
  url-encoded title used for the node hyperlink.  `pydot` quotes names
  uniformly when writing, so raw titles serve as node identities everywhere
  (graph, `rev`, `fw`, `leaves`), exactly as in the source.
* `self.rev` and `self.fw` (`defaultdict(list)`) are association lists with
  default `[]`; `self.leaves` (a `set`) is kept as an insertion-ordered list
  without duplicates, and the size limiter takes the set's iteration order
  as an explicit parameter, since Python set iteration order is unspecified.
* The state additionally records a ghost event trace (`events`) noting each
  node-creation and edge-insertion in program order; it instruments the
  embedding and is read by no embedded operation.
-/

namespace Wikigraphviz

/-- Python `int()` applied to a float/rational: truncation toward zero. -/
def pyInt (q : ℚ) : ℤ := if q < 0 then ⌈q⌉ else ⌊q⌋

/-- Python `round(q, 2)`: rounding to two decimal places.  (CPython uses
round-half-to-even on binary64; no value considered in this development is a
tie at the second decimal, where the models could differ.) -/
def round2 (q : ℚ) : ℚ := (round (q * 100) : ℚ) / 100

/-- Python `q % 1` for a nonnegative float: the fractional part. -/
def mod1 (q : ℚ) : ℚ := q - ⌊q⌋

/-- The `depth` option as it reaches the bot: `argparse` yields the `int` 2
when the option is absent (its declared default) and a decimal string when
the user passes `--depth N` on the command line.  `int()` converts either
form to the number `n`. -/
inductive DepthVal : Type
  | intv (n : ℕ)
  | strv (n : ℕ)
deriving DecidableEq, Repr

/-- The value `int(self.args.depth)` used as the initial level. -/
def DepthVal.toNat : DepthVal → ℕ
  | .intv n => n
  | .strv n => n

/-- Python `level != self.args.depth` where `level` is an `int`: an `int`
never equals a `str`, so a string-valued depth makes the test true. -/
def pyNe (level : ℕ) : DepthVal → Bool
  | .intv m => level ≠ m
  | .strv _ => true

/-- Configuration of one run (after `float(args.downsize)`). -/
structure Config : Type where
  downsize : ℚ
  depthArg : DepthVal
  siteCode : String

/-- The category source: subcategory titles of a category and the
url-encoded title (`cat.title(as_url=True)`). -/
structure Source : Type where
  sub : String → List String
  urlTitle : String → String

/-- Python string comparison: lexicographic on code points. -/
def charListLt : List Char → List Char → Bool
  | [], [] => false
  | [], _ :: _ => true
  | _ :: _, [] => false
  | a :: as, b :: bs =>
    if a.toNat < b.toNat then true
    else if b.toNat < a.toNat then false
    else charListLt as bs

/-- Python `a < b` on strings. -/
def pyStrLt (a b : String) : Bool := charListLt a.data b.data

/-- Stable sort by title, as Python `sorted(cat.subcategories())` (pywikibot
pages compare by title).  Insertion sort is stable, hence produces the same
list as CPython's stable sort. -/
def insertSorted (x : String) : List String → List String
  | [] => [x]
  | y :: ys => if pyStrLt y x then y :: insertSorted x ys else x :: y :: ys

/-- Python `sorted` on a list of titles. -/
def pySorted : List String → List String
  | [] => []
  | x :: xs => insertSorted x (pySorted xs)

/-- One rendered vertex (a `pydot.Node`) with the attributes set by the
inner `node()` helper. -/
structure Node : Type where
  name : String
  label : String
  tooltip : String
  url : String
  fontsize : ℤ
deriving DecidableEq, Repr

/-- One rendered edge (a `pydot.Edge`) with the attributes set by the inner
`edge()` helper.  The `color` attribute is emitted as
`str(round(h, 2)) ++ " 1 0.7"` and `labelfontcolor` as
`str(round(h, 2)) ++ " 1 0.5"`; the rounded hue is stored. -/
structure Edge : Type where
  src : String
  dst : String
  tooltip : String
  headlabel : String
  minlen : ℕ
  penwidth : ℚ
  arrowsize : ℚ
  colorHue : ℚ
  labelfontsize : ℤ
  labelfontcolorHue : ℚ
deriving DecidableEq, Repr

/-- Ghost trace events: each `dot.add_node` (with the level of the creating
call) and each `dot.add_edge` (with the hue used for the edge). -/
inductive Ev : Type
  | nodeAdded (name : String) (level : ℕ)
  | edgeAdded (src dst : String) (hue : ℚ)
deriving DecidableEq, Repr

/-- Lookup in a `defaultdict(list)`: the first binding of the key, or the
default `[]`. -/
def mget : List (String × List String) → String → List String
  | [], _ => []
  | e :: m, k => if e.1 = k then e.2 else mget m k

/-- Store a value in a `defaultdict(list)`: replace the key's binding, or
append a fresh one (dictionaries are insertion-ordered). -/
def mset : List (String × List String) → String → List String →
    List (String × List String)
  | [], k, v => [(k, v)]
  | e :: m, k, v => if e.1 = k then (k, v) :: m else e :: mset m k v

/-- Python `m[k].append(x)` on a `defaultdict(list)`. -/
def mapp (m : List (String × List String)) (k : String) (x : String) :
    List (String × List String) :=
  mset m k (mget m k ++ [x])

/-- The mutable state of one run: the dot graph (node and edge insertion
lists), `self.counter`, `self.rev`, `self.fw`, `self.leaves`, and the ghost
event trace. -/
structure St : Type where
  nodes : List Node
  edges : List Edge
  counter : ℕ
  rev : List (String × List String)
  fw : List (String × List String)
  leaves : List String
  events : List Ev
deriving DecidableEq, Repr

/-- The initial state built in `__init__`. -/
def st0 : St := ⟨[], [], 0, [], [], [], []⟩

/-- The per-call scale `size = float(args.downsize) ** level`.  CPython
raises `OverflowError` when the power leaves the double range, so the
rational power is a faithful model only while `downsize ^ level` stays
inside it; every configuration used in a theorem below keeps it tiny
(downsize 4 or 5/4 at levels ≤ 2, and downsize 1 — where
`1.0 ** level == 1.0` exactly — for the deep-chain run). -/
def nodeSize (cfg : Config) (level : ℕ) : ℚ := cfg.downsize ^ level

/-- The sorted subcategory titles `subcats = sorted(cat.subcategories())`. -/
def sortedSubs (src : Source) (cat : String) : List String :=
  pySorted (src.sub cat)

/-- The tooltip body: subcategory titles joined by a comma, blanks replaced
by a non-breaking space, truncated at 1000 characters with an ellipsis. -/
def tooltipSubs (subcats : List String) : String :=
  let subs := String.intercalate ", "
    (subcats.map (fun c => c.replace " " "&nbsp;"))
  if subs.length > 1000 then subs.take 1000 ++ " ..." else subs

/-- The inner `node()` helper of `scan_level`. -/
def node (cfg : Config) (src : Source) (cat : String) (level : ℕ) : Node :=
  let subcats := sortedSubs src cat
  { name := cat
    label := "\"" ++ cat ++ "\\n" ++ toString subcats.length ++ " C\""
    tooltip := cat ++ "\n\n" ++ tooltipSubs subcats
    url := "https://" ++ cfg.siteCode ++ ".wikipedia.org/wiki/"
      ++ src.urlTitle cat
    fontsize := pyInt (10 * nodeSize cfg level) }

/-- `2 ^ z` as a rational, for an integer exponent. -/
def exp2 (z : ℤ) : ℚ :=
  if 0 ≤ z then ((2 ^ z.toNat : ℕ) : ℚ) else 1 / ((2 ^ (-z).toNat : ℕ) : ℚ)

/-- Scale a positive rational by powers of two into `[1/2, 1)`, returning
the mantissa and the binary exponent; the fuel 2200 covers the whole
binary64 range with margin. -/
def scaleInto : ℕ → ℚ → ℤ → ℚ × ℤ
  | 0, q, e => (q, e)
  | fuel + 1, q, e =>
    if q < 1 / 2 then scaleInto fuel (2 * q) (e - 1)
    else if 1 ≤ q then scaleInto fuel (q / 2) (e + 1)
    else (q, e)

/-- Round a rational to the nearest integer, ties to even. -/
def rne (x : ℚ) : ℤ :=
  let f := ⌊x⌋
  let r := x - (f : ℚ)
  if r < 1 / 2 then f
  else if 1 / 2 < r then f + 1
  else if f % 2 = 0 then f else f + 1

/-- Binary64 rounding of a nonnegative rational: round to nearest, ties to
even, 53-bit significand.  The exponent is unbounded, i.e. the model has
neither overflow nor subnormals; every value it is applied to in this
development lies in `[0, 16)`, far inside the normal binary64 range, where
the model coincides with IEEE-754 double rounding. -/
def fl53 (q : ℚ) : ℚ :=
  if q ≤ 0 then 0
  else
    let p := scaleInto 2200 q 0
    ((rne (p.1 * 2 ^ 53) : ℤ) : ℚ) * exp2 (p.2 - 53)

/-- The hue choice for the child at ordinal `n`:
`h = hue if hue is not None else (11 / 18 * n) % 1`, computed in binary64
as the program does: `11 / 18` is rounded (it is not dyadic), the product
with the exactly-converted small integer `n` is rounded again, and `% 1`
is exact, because the fractional part of a binary64 value is itself
representable and CPython's float modulo returns the exact result. -/
def chooseHue (hue : Option ℚ) (n : ℕ) : ℚ :=
  match hue with
  | some h => h
  | none => mod1 (fl53 (fl53 (11 / 18) * n))

/-- The inner `edge()` helper of `scan_level`: attributes of the edge to the
child at ordinal `n` of `columns` groups, at level `level`. -/
def edge (cfg : Config) (title subcat : String) (n columns level : ℕ)
    (size : ℚ) (h : ℚ) : Edge :=
  { src := title
    dst := subcat
    tooltip := title ++ "  ⟶  " ++ subcat
    headlabel := title
    minlen := if pyNe level cfg.depthArg then n % columns + 1 else 1
    penwidth := round2 (size / 2)
    arrowsize := round2 (size / 4)
    colorHue := round2 h
    labelfontsize := pyInt size
    labelfontcolorHue := round2 h }

/-- The node-creation step of `scan_level`: `self.dot.add_node(node)` and
`self.counter += 1`, with its trace event. -/
def addNode (cfg : Config) (src : Source) (cat : String) (level : ℕ)
    (st : St) : St :=
  { st with
    nodes := st.nodes ++ [node cfg src cat level]
    counter := st.counter + 1
    events := st.events ++ [Ev.nodeAdded cat level] }

/-- Recording a leaf: `self.leaves.add(node.get_name())` (a set add). -/
def addLeaf (cat : String) (st : St) : St :=
  { st with
    leaves := if st.leaves.contains cat then st.leaves
              else st.leaves ++ [cat] }

/-- The edge insertion `self.dot.add_edge(e)` for the child at ordinal `n`,
with its trace event. -/
def edgeState (cfg : Config) (title : String) (columns level : ℕ)
    (size : ℚ) (h : ℚ) (n : ℕ) (subcat : String) (st : St) : St :=
  { st with
    edges := st.edges ++ [edge cfg title subcat n columns level size h]
    events := st.events ++ [Ev.edgeAdded title subcat h] }

/-- The adjacency bookkeeping after a child has been visited:
`self.rev[e.get_destination()].append(e.get_source())` and
`self.fw[e.get_source()].append(e.get_destination())`. -/
def adjState (title subcat : String) (st : St) : St :=
  { st with
    rev := mapp st.rev subcat title
    fw := mapp st.fw title subcat }

/-- One iteration of the `for n, subcat in enumerate(subcats)` loop of
`scan_level`: add the edge, recurse (`recur` is `scan_level` at the next
lower level), then append to `self.rev` and `self.fw`. -/
def childStep (recur : String → Option ℚ → St → St) (cfg : Config)
    (title : String) (columns level : ℕ) (size : ℚ) (hue : Option ℚ)
    (n : ℕ) (subcat : String) (st : St) : St :=
  adjState title subcat
    (recur subcat (some (chooseHue hue n))
      (edgeState cfg title columns level size (chooseHue hue n) n subcat st))

/-- The loop `for n, subcat in enumerate(subcats)` of `scan_level`. -/
def scanChildren (recur : String → Option ℚ → St → St) (cfg : Config)
    (title : String) (columns level : ℕ) (size : ℚ) (hue : Option ℚ) :
    ℕ → List String → St → St
  | _, [], st => st
  | n, subcat :: rest, st =>
    scanChildren recur cfg title columns level size hue (n + 1) rest
      (childStep recur cfg title columns level size hue n subcat st)

/-- The recursive traversal `scan_level(cat, level, hue)`.  The node is
created and the counter incremented first; the call stops (recording a
leaf) when the level is zero or the counter has reached the hard cap of
10000, and otherwise visits the sorted subcategories in order. -/
def scan_level (cfg : Config) (src : Source) :
    (level : ℕ) → String → Option ℚ → St → St
  | 0 => fun cat _ st => addLeaf cat (addNode cfg src cat 0 st)
  | lvl + 1 => fun cat hue st =>
    let st1 := addNode cfg src cat (lvl + 1) st
    if 10000 ≤ st1.counter then addLeaf cat st1
    else
      let subcats := sortedSubs src cat
      let columns := subcats.length / 5 + 1
      scanChildren (scan_level cfg src lvl) cfg cat columns (lvl + 1)
        (nodeSize cfg (lvl + 1)) hue 0 subcats st1

/-- Python `xs.remove(x)` on a list: drop the first occurrence, or `none`
(a `ValueError`) when the element is absent. -/
def removeFirst (x : String) : List String → Option (List String)
  | [] => none
  | y :: ys => if y = x then some ys else (removeFirst x ys).map (y :: ·)

/-- Deletion `self.dot.del_node(n)`: removes every node registered under the
name. -/
def delNode (name : String) (nodes : List Node) : List Node :=
  nodes.filter (fun nd => nd.name ≠ name)

/-- Deletion `self.dot.del_edge(s, d)`: removes every edge between the two
endpoints. -/
def delEdge (s d : String) (edges : List Edge) : List Edge :=
  edges.filter (fun e => ¬(e.src = s ∧ e.dst = d))

/-- One chain-pruning walk of the size limiter, started at a leaf `n`:
`while len(self.rev[n]) == 1:` delete the edge and the node, remove `n` from
the parent's forward list (`ValueError`, modelled as `Except.error`, if it
is not there), stop if the parent keeps other children, else climb to the
parent.  Every iteration removes one entry of `fw`, so the walk makes at
most `totalFw` steps; it is run with more fuel than that, making the
fuel-exhaustion branch unreachable. -/
def pruneFrom : ℕ → String → St → Except Unit St
  | 0, _, st => Except.ok st
  | fuel + 1, n, st =>
    match mget st.rev n with
    | [p] =>
      let st1 : St := { st with
        edges := delEdge p n st.edges
        nodes := delNode n st.nodes }
      match removeFirst n (mget st1.fw p) with
      | none => Except.error ()
      | some l =>
        let st2 : St := { st1 with fw := mset st1.fw p l }
        if l.isEmpty then pruneFrom fuel p st2 else Except.ok st2
    | _ => Except.ok st

/-- The size limiter body: `for n in self.leaves:` run one chain-pruning
walk per leaf, in the iteration order of the set (given explicitly).  A
raised `ValueError` aborts the whole run. -/
def reduceLeaves (fuel : ℕ) (order : List String) (st : St) :
    Except Unit St :=
  order.foldlM (fun s n => pruneFrom fuel n s) st

/-- Total number of entries of the forward index; each iteration of a
pruning walk consumes one, which bounds the walks' length. -/
def totalFw (m : List (String × List String)) : ℕ :=
  (m.map (fun e => e.2.length)).sum

/-- The size-limiting phase of `run`: nothing happens unless the counter
exceeds 1000. -/
def sizeLimit (order : List String) (st : St) : Except Unit St :=
  if 1000 < st.counter then reduceLeaves (totalFw st.fw + 1) order st
  else Except.ok st

/-- A complete run: traversal from the root category at
`int(self.args.depth)`, size limiting (with `chooseOrder` supplying the
iteration order of the `leaves` set), and the written graph description
(its nodes and edges in order; `none` when the run raised). -/
def run (cfg : Config) (src : Source) (root : String)
    (chooseOrder : List String → List String) :
    Option (List Node × List Edge) :=
  let st := scan_level cfg src cfg.depthArg.toNat root none st0
  match sizeLimit (chooseOrder st.leaves) st with
  | Except.ok st1 => some (st1.nodes, st1.edges)
  | Except.error _ => none

/-! ### Trace checkers and concrete inputs used by individual claims -/

/-- Checks that, whenever an edge-insertion event occurs, both endpoint
nodes have been created by an earlier event.  `seen` accumulates the names
created so far. -/
def endpointsSeen (seen : List String) : List Ev → Bool
  | [] => true
  | Ev.nodeAdded nm _ :: t => endpointsSeen (nm :: seen) t
  | Ev.edgeAdded s d _ :: t =>
    seen.contains s && seen.contains d && endpointsSeen seen t

/-- Checks that, whenever an edge-insertion event occurs, the source node
has been created by an earlier event. -/
def srcSeen (seen : List String) : List Ev → Bool
  | [] => true
  | Ev.nodeAdded nm _ :: t => srcSeen (nm :: seen) t
  | Ev.edgeAdded s _ _ :: t => seen.contains s && srcSeen seen t

/-- Checks that every edge-insertion event is immediately followed by the
creation of the edge's destination node (the recursive call into the
child). -/
def childAfterEdge : List Ev → Bool
  | [] => true
  | Ev.edgeAdded _ d _ :: t =>
    (match t with
     | Ev.nodeAdded nm _ :: _ => nm == d
     | _ => false) && childAfterEdge t
  | Ev.nodeAdded _ _ :: t => childAfterEdge t

/-- Checks that a trace segment does not end with an edge insertion. -/
def notEdgeLast : List Ev → Bool
  | [] => true
  | [Ev.edgeAdded _ _ _] => false
  | [Ev.nodeAdded _ _] => true
  | _ :: t => notEdgeLast t

/-- The names created by the node events of a trace, accumulated onto
`seen`. -/
def collectNodes (seen : List String) : List Ev → List String
  | [] => seen
  | Ev.nodeAdded nm _ :: t => collectNodes (nm :: seen) t
  | Ev.edgeAdded _ _ _ :: t => collectNodes seen t

/-- The names of the nodes registered in the graph. -/
def nodeNames (st : St) : List String := st.nodes.map Node.name

/-- Geometric sum `1 + b + b^2 + ... + b^lvl`, an upper bound for the
number of nodes a depth-`lvl` traversal can create when no category has
more than `b` subcategories. -/
def geomSum (b : ℕ) : ℕ → ℕ
  | 0 => 1
  | l + 1 => 1 + b * geomSum b l

/-- A default configuration (`downsize 4`, default depth 2). -/
def cfgD : Config := ⟨4, DepthVal.intv 2, "en"⟩

/-- A source whose root has 10001 subcategories: a single level of
traversal then creates 10002 nodes, pushing the counter past the cap. -/
def srcStar : Source :=
  ⟨fun s => if s = "r" then (List.range 10001).map (fun i => "c" ++ toString i)
            else [],
   fun s => s⟩

/-- A state that has already created 9999 nodes. -/
def stNearCap : St := ⟨[], [], 9999, [], [], [], []⟩

/-- A one-category cyclic source: the category is its own subcategory. -/
def srcCyc : Source := ⟨fun _ => ["c"], fun s => s⟩

/-- A source with a single two-node chain, for small concrete traces. -/
def srcPair : Source := ⟨fun s => if s = "r" then ["a"] else [], fun s => s⟩

/-- A childless source. -/
def srcE : Source := ⟨fun _ => [], fun s => s⟩

/-- A configuration with the fractional downsize factor 1.25 (exactly
representable in binary64), used to separate truncation from rounding. -/
def cfg54 : Config := ⟨5 / 4, DepthVal.intv 2, "en"⟩

/-- A synthetic node carrying only its identity, for constructed graphs. -/
def synthNode (s : String) : Node := ⟨s, s, s, s, 0⟩

/-- A synthetic edge carrying only its endpoints. -/
def synthEdge (s d : String) : Edge := ⟨s, d, "", "", 1, 0, 0, 0, 0, 0⟩

/-- The synthetic graph of the specification's chain-pruning test:
`root → A → B → C`, `C` the only recorded leaf, `A` and `B` each with one
child and one parent, with the counter forced above the reduction
threshold. -/
def stC6 : St :=
  ⟨[synthNode "root", synthNode "A", synthNode "B", synthNode "C"],
   [synthEdge "root" "A", synthEdge "A" "B", synthEdge "B" "C"],
   1001,
   [("A", ["root"]), ("B", ["A"]), ("C", ["B"])],
   [("root", ["A"]), ("A", ["B"]), ("B", ["C"])],
   ["C"], []⟩

/-- A synthetic two-node graph `P → X` (with `X` the recorded leaf and the
counter above the threshold), used to exercise single pruning walks. -/
def stPX : St :=
  ⟨[synthNode "P", synthNode "X"],
   [synthEdge "P" "X"],
   1001,
   [("X", ["P"])],
   [("P", ["X"])],
   ["X"], []⟩

/-- The state after one iteration of a pruning walk has deleted the node
`n`, the edge from `p` to `n`, and `n`'s entry in `fw[p]` (whose remainder
is `l`). -/
def pruneState (p n : String) (l : List String) (st : St) : St :=
  { st with
    edges := delEdge p n st.edges
    nodes := delNode n st.nodes
    fw := mset st.fw p l }

/-- The pruned form of `stPX`: the walk from `X` deletes `X` and its edge
and stops at `P`, which has no recorded parent. -/
def stPXr : St :=
  ⟨[synthNode "P"], [], 1001, [("X", ["P"])], [("P", [])], ["X"], []⟩

/-- A root with six subcategories (so the sorted list is split into
`6 // 5 + 1 = 2` columns). -/
def src6 : Source :=
  ⟨fun s => if s = "r" then ["c0", "c1", "c2", "c3", "c4", "c5"] else [],
   fun s => s⟩

/-- The configuration produced by passing `--depth 2` on the command line:
`argparse` stores the string, so `self.args.depth` is `"2"` while the
levels are `int`s. -/
def cfgStr : Config := ⟨4, DepthVal.strv 2, "en"⟩

/-! ### Basic lemmas about the map and sort helpers -/

theorem mget_nil (k : String) : mget [] k = [] := rfl

theorem mget_mset_self (m : List (String × List String)) (k : String)
    (v : List String) : mget (mset m k v) k = v := by
  induction m with
  | nil => simp [mset, mget]
  | cons a m ih =>
    by_cases hk : a.1 = k
    · simp [mset, mget, hk]
    · simp [mset, mget, hk, ih]

theorem mget_mset_ne (m : List (String × List String)) (k k' : String)
    (v : List String) (h : k' ≠ k) : mget (mset m k v) k' = mget m k' := by
  induction m with
  | nil => simp [mset, mget, Ne.symm h]
  | cons a m ih =>
    by_cases hk : a.1 = k
    · simp [mset, mget, hk, Ne.symm h, hk ▸ h]
    · by_cases hk' : a.1 = k'
      · rw [mset, if_neg hk]
        simp [mget, hk']
      · simp [mset, mget, hk, hk', ih]

theorem length_insertSorted (x : String) (l : List String) :
    (insertSorted x l).length = l.length + 1 := by
  induction l with
  | nil => rfl
  | cons y ys ih =>
    by_cases h : pyStrLt y x
    · simp [insertSorted, h, ih]
    · simp [insertSorted, h]

theorem length_pySorted (l : List String) :
    (pySorted l).length = l.length := by
  induction l with
  | nil => rfl
  | cons x xs ih => simp [pySorted, length_insertSorted, ih]

theorem length_sortedSubs (src : Source) (cat : String) :
    (sortedSubs src cat).length = (src.sub cat).length := by
  simp [sortedSubs, length_pySorted]

/-! ### The traversal only extends the state

The relation `Ext s t` states that `t` is an extension of `s`: node, edge
and event lists only grow at the end, the counter grows by exactly the
number of node-creation events added, every adjacency list only receives
appended entries, and the leaf set only grows.  Every state transition of
`scan_level` satisfies it. -/

/-- Number of node-creation events in a trace segment. -/
def cntNode : List Ev → ℕ
  | [] => 0
  | Ev.nodeAdded _ _ :: t => cntNode t + 1
  | Ev.edgeAdded _ _ _ :: t => cntNode t

theorem cntNode_append (a b : List Ev) :
    cntNode (a ++ b) = cntNode a + cntNode b := by
  induction a with
  | nil => simp [cntNode]
  | cons e t ih =>
    cases e with
    | nodeAdded nm l =>
      rw [List.cons_append,
        show ∀ u, cntNode (Ev.nodeAdded nm l :: u) = cntNode u + 1
          from fun _ => rfl,
        show ∀ u, cntNode (Ev.nodeAdded nm l :: u) = cntNode u + 1
          from fun _ => rfl, ih]
      omega
    | edgeAdded s d h =>
      rw [List.cons_append,
        show ∀ u, cntNode (Ev.edgeAdded s d h :: u) = cntNode u
          from fun _ => rfl,
        show ∀ u, cntNode (Ev.edgeAdded s d h :: u) = cntNode u
          from fun _ => rfl, ih]

/-- State extension produced by traversal steps. -/
def Ext (s t : St) : Prop :=
  (∃ d, t.nodes = s.nodes ++ d) ∧
  (∃ d, t.edges = s.edges ++ d) ∧
  (∃ d, t.events = s.events ++ d ∧
        t.counter = s.counter + cntNode d ∧
        t.nodes.length = s.nodes.length + cntNode d) ∧
  (∀ k, ∃ d, mget t.rev k = mget s.rev k ++ d) ∧
  (∀ k, ∃ d, mget t.fw k = mget s.fw k ++ d) ∧
  (∀ x, x ∈ s.leaves → x ∈ t.leaves)

theorem Ext.refl (s : St) : Ext s s :=
  ⟨⟨[], by simp⟩, ⟨[], by simp⟩, ⟨[], by simp [cntNode]⟩,
   fun k => ⟨[], by simp⟩, fun k => ⟨[], by simp⟩, fun _ h => h⟩

theorem Ext.trans {a b c : St} (h1 : Ext a b) (h2 : Ext b c) : Ext a c := by
  obtain ⟨⟨n1, hn1⟩, ⟨e1, he1⟩, ⟨v1, hv1, hc1, hl1⟩, hr1, hf1, hle1⟩ := h1
  obtain ⟨⟨n2, hn2⟩, ⟨e2, he2⟩, ⟨v2, hv2, hc2, hl2⟩, hr2, hf2, hle2⟩ := h2
  refine ⟨⟨n1 ++ n2, by simp [hn2, hn1]⟩, ⟨e1 ++ e2, by simp [he2, he1]⟩,
    ⟨v1 ++ v2, by simp [hv2, hv1], ?_, ?_⟩, ?_, ?_, fun x hx => hle2 x (hle1 x hx)⟩
  · rw [hc2, hc1, cntNode_append]; omega
  · rw [hl2, hl1, cntNode_append]; omega
  · intro k
    obtain ⟨d1, hd1⟩ := hr1 k
    obtain ⟨d2, hd2⟩ := hr2 k
    exact ⟨d1 ++ d2, by simp [hd2, hd1]⟩
  · intro k
    obtain ⟨d1, hd1⟩ := hf1 k
    obtain ⟨d2, hd2⟩ := hf2 k
    exact ⟨d1 ++ d2, by simp [hd2, hd1]⟩

theorem ext_addNode (cfg : Config) (src : Source) (cat : String) (lvl : ℕ)
    (st : St) : Ext st (addNode cfg src cat lvl st) :=
  ⟨⟨[node cfg src cat lvl], rfl⟩, ⟨[], by simp [addNode]⟩,
   ⟨[Ev.nodeAdded cat lvl], rfl, by simp [addNode, cntNode],
     by simp [addNode, cntNode]⟩,
   fun k => ⟨[], by simp [addNode]⟩, fun k => ⟨[], by simp [addNode]⟩,
   fun x hx => by simpa [addNode] using hx⟩

theorem ext_addLeaf (cat : String) (st : St) : Ext st (addLeaf cat st) :=
  ⟨⟨[], by simp [addLeaf]⟩, ⟨[], by simp [addLeaf]⟩,
   ⟨[], by simp [addLeaf, cntNode]⟩,
   fun k => ⟨[], by simp [addLeaf]⟩, fun k => ⟨[], by simp [addLeaf]⟩,
   fun x hx => by
     by_cases h : cat ∈ st.leaves <;> simp [addLeaf, h, hx]⟩

theorem ext_edgeState (cfg : Config) (title : String) (columns lvl : ℕ)
    (size : ℚ) (h : ℚ) (n : ℕ) (subcat : String) (st : St) :
    Ext st (edgeState cfg title columns lvl size h n subcat st) :=
  ⟨⟨[], by simp [edgeState]⟩,
   ⟨[edge cfg title subcat n columns lvl size h], rfl⟩,
   ⟨[Ev.edgeAdded title subcat h], rfl, by simp [edgeState, cntNode],
    by simp [edgeState, cntNode]⟩,
   fun k => ⟨[], by simp [edgeState]⟩, fun k => ⟨[], by simp [edgeState]⟩,
   fun x hx => hx⟩

theorem mget_mapp (m : List (String × List String)) (k k' x : String) :
    ∃ d, mget (mapp m k x) k' = mget m k' ++ d := by
  by_cases h : k' = k
  · subst h
    exact ⟨[x], by simp [mapp, mget_mset_self]⟩
  · exact ⟨[], by simp [mapp, mget_mset_ne _ _ _ _ h]⟩

theorem ext_adjState (t c : String) (st : St) :
    Ext st (adjState t c st) :=
  ⟨⟨[], by simp [adjState]⟩, ⟨[], by simp [adjState]⟩,
   ⟨[], by simp [adjState, cntNode]⟩,
   fun k => mget_mapp st.rev c k t, fun k => mget_mapp st.fw t k c,
   fun x hx => hx⟩

theorem ext_childStep (recur : String → Option ℚ → St → St)
    (cfg : Config) (title : String) (columns lvl : ℕ) (size : ℚ)
    (hue : Option ℚ) (n : ℕ) (c : String) (st : St)
    (hr : ∀ c hu s, Ext s (recur c hu s)) :
    Ext st (childStep recur cfg title columns lvl size hue n c st) :=
  Ext.trans (Ext.trans (ext_edgeState _ _ _ _ _ _ _ _ _) (hr c _ _))
    (ext_adjState _ _ _)

theorem ext_scanChildren (recur : String → Option ℚ → St → St)
    (cfg : Config) (title : String) (columns lvl : ℕ) (size : ℚ)
    (hue : Option ℚ)
    (hr : ∀ c hu s, Ext s (recur c hu s)) :
    ∀ (cs : List String) (n : ℕ) (st : St),
      Ext st (scanChildren recur cfg title columns lvl size hue n cs st) := by
  intro cs
  induction cs with
  | nil => intro n st; exact Ext.refl st
  | cons c rest ih =>
    intro n st
    exact Ext.trans (ext_childStep recur cfg title columns lvl size hue n c
      st hr) (ih _ _)

theorem ext_scan_level (cfg : Config) (src : Source) :
    ∀ (lvl : ℕ) (cat : String) (hue : Option ℚ) (st : St),
      Ext st (scan_level cfg src lvl cat hue st) := by
  intro lvl
  induction lvl with
  | zero =>
    intro cat hue st
    exact Ext.trans (ext_addNode cfg src cat 0 st) (ext_addLeaf _ _)
  | succ l ih =>
    intro cat hue st
    show Ext st (if 10000 ≤ (addNode cfg src cat (l + 1) st).counter
      then addLeaf cat (addNode cfg src cat (l + 1) st)
      else _)
    by_cases h : 10000 ≤ (addNode cfg src cat (l + 1) st).counter
    · rw [if_pos h]
      exact Ext.trans (ext_addNode cfg src cat (l + 1) st) (ext_addLeaf _ _)
    · rw [if_neg h]
      exact Ext.trans (ext_addNode cfg src cat (l + 1) st)
        (ext_scanChildren _ cfg cat _ (l + 1) _ hue (fun c hu s => ih c hu s)
          _ 0 _)

/-! ### Claim C1: the counter counts node creations, but can pass the cap -/

theorem counter_addLeaf (cat : String) (st : St) :
    (addLeaf cat st).counter = st.counter := rfl

theorem counter_scan_level_zero (cfg : Config) (src : Source) (cat : String)
    (hue : Option ℚ) (st : St) :
    (scan_level cfg src 0 cat hue st).counter = st.counter + 1 := rfl

theorem counter_edgeState (cfg : Config) (title : String) (columns lvl : ℕ)
    (size : ℚ) (h : ℚ) (n : ℕ) (subcat : String) (st : St) :
    (edgeState cfg title columns lvl size h n subcat st).counter =
      st.counter := rfl

theorem counter_childStep (recur : String → Option ℚ → St → St)
    (cfg : Config) (title : String) (columns lvl : ℕ) (size : ℚ)
    (hue : Option ℚ) (n : ℕ) (c : String) (st : St) :
    (childStep recur cfg title columns lvl size hue n c st).counter =
      (recur c (some (chooseHue hue n))
        (edgeState cfg title columns lvl size (chooseHue hue n) n c
          st)).counter := rfl

theorem counter_scanChildren_zero (cfg : Config) (src : Source)
    (title : String) (columns lvl : ℕ) (size : ℚ) (hue : Option ℚ) :
    ∀ (cs : List String) (n : ℕ) (st : St),
      (scanChildren (scan_level cfg src 0) cfg title columns lvl size hue
        n cs st).counter = st.counter + cs.length := by
  intro cs
  induction cs with
  | nil => intro n st; simp [scanChildren]
  | cons c rest ih =>
    intro n st
    show (scanChildren _ _ _ _ _ _ _ (n + 1) rest _).counter = _
    rw [ih, counter_childStep, counter_scan_level_zero, counter_edgeState]
    simp
    omega

theorem scan_level_succ_not_capped (cfg : Config) (src : Source) (lvl : ℕ)
    (cat : String) (hue : Option ℚ) (st : St)
    (h : ¬ 10000 ≤ st.counter + 1) :
    scan_level cfg src (lvl + 1) cat hue st =
      scanChildren (scan_level cfg src lvl) cfg cat
        ((sortedSubs src cat).length / 5 + 1) (lvl + 1)
        (nodeSize cfg (lvl + 1)) hue 0 (sortedSubs src cat)
        (addNode cfg src cat (lvl + 1) st) := by
  show (if 10000 ≤ (addNode cfg src cat (lvl + 1) st).counter then _ else _) = _
  rw [if_neg (by simpa [addNode] using h)]

/-- Claim C1, amended.  After any `scan_level` call the counter has grown by
exactly the number of node-creation events the call made (so it always
equals the total number of `GraphNode`-creation calls), and once the counter
has reached the 10000 cap the call makes its node a forced leaf and does not
recurse.  The original claim's bound fails: the counter is not capped at
10000, because sibling calls still create one node each after the cap is
reached (see the counterexample). -/
theorem c1_counter_counts_creations (cfg : Config) (src : Source) (lvl : ℕ)
    (cat : String) (hue : Option ℚ) (st : St) :
    (∃ d, (scan_level cfg src lvl cat hue st).events = st.events ++ d ∧
      (scan_level cfg src lvl cat hue st).counter = st.counter + cntNode d) ∧
    (10000 ≤ st.counter + 1 →
      scan_level cfg src lvl cat hue st =
        addLeaf cat (addNode cfg src cat lvl st)) := by
  constructor
  · obtain ⟨_, _, ⟨d, hd, hc, _⟩, _, _, _⟩ := ext_scan_level cfg src lvl cat hue st
    exact ⟨d, hd, hc⟩
  · intro h
    cases lvl with
    | zero => rfl
    | succ l =>
      show (if 10000 ≤ (addNode cfg src cat (l + 1) st).counter
        then _ else _) = _
      rw [if_pos (by simpa [addNode] using h)]

/-- Witness for C1 at a concrete capped state: with 9999 nodes already
created, the next call creates its node, marks it a leaf and stops. -/
theorem c1_counter_counts_creations_witness :
    10000 ≤ stNearCap.counter + 1 ∧
    scan_level cfgD srcPair 2 "r" none stNearCap =
      addLeaf "r" (addNode cfgD srcPair "r" 2 stNearCap) := by
  refine ⟨by norm_num [stNearCap], ?_⟩
  exact (c1_counter_counts_creations cfgD srcPair 2 "r" none stNearCap).2
    (by norm_num [stNearCap])

/-- Counterexample to C1 as stated: a root with 10001 subcategories,
traversed at depth 1, leaves the counter at 10002, exceeding the claimed
10000 bound (each child past the cap still creates its node before being
forced into a leaf). -/
theorem c1_cex :
    ¬ ((scan_level cfgD srcStar 1 "r" none st0).counter ≤ 10000) := by
  have hlen : (sortedSubs srcStar "r").length = 10001 := by
    rw [length_sortedSubs]
    simp [srcStar]
  have h1 : (scan_level cfgD srcStar 1 "r" none st0).counter = 10002 := by
    rw [scan_level_succ_not_capped cfgD srcStar 0 "r" none st0
      (by norm_num [st0])]
    rw [counter_scanChildren_zero]
    rw [show (addNode cfgD srcStar "r" (0 + 1) st0).counter = 1 from rfl, hlen]
  rw [h1]
  norm_num

/-! ### Claim C3: depth-bounded termination, independent of cycles -/

theorem counter_le_childStep (recur : String → Option ℚ → St → St)
    (cfg : Config) (title : String) (columns lvl : ℕ) (size : ℚ)
    (hue : Option ℚ) (B : ℕ) (n : ℕ) (c : String) (st : St)
    (hr : ∀ c hu s, (recur c hu s).counter ≤ s.counter + B) :
    (childStep recur cfg title columns lvl size hue n c st).counter ≤
      st.counter + B := by
  rw [counter_childStep]
  have h2 := hr c (some (chooseHue hue n))
    (edgeState cfg title columns lvl size (chooseHue hue n) n c st)
  rwa [counter_edgeState] at h2

theorem counter_le_scanChildren (recur : String → Option ℚ → St → St)
    (cfg : Config) (title : String) (columns lvl : ℕ) (size : ℚ)
    (hue : Option ℚ) (B : ℕ)
    (hr : ∀ c hu s, (recur c hu s).counter ≤ s.counter + B) :
    ∀ (cs : List String) (n : ℕ) (st : St),
      (scanChildren recur cfg title columns lvl size hue n cs st).counter ≤
        st.counter + cs.length * B := by
  intro cs
  induction cs with
  | nil => intro n st; simp [scanChildren]
  | cons c rest ih =>
    intro n st
    show (scanChildren _ _ _ _ _ _ _ (n + 1) rest _).counter ≤ _
    have h1 := ih (n + 1) (childStep recur cfg title columns lvl size hue n c st)
    have h2 := counter_le_childStep recur cfg title columns lvl size hue B
      n c st hr
    simp only [List.length_cons]
    calc (scanChildren _ _ _ _ _ _ _ (n + 1) rest
          (childStep recur cfg title columns lvl size hue n c st)).counter
        ≤ (childStep recur cfg title columns lvl size hue n c st).counter
            + rest.length * B := h1
      _ ≤ st.counter + B + rest.length * B := by omega
      _ ≤ st.counter + (rest.length + 1) * B := by ring_nf; omega

theorem geomSum_pos (b l : ℕ) : 1 ≤ geomSum b l := by
  cases l with
  | zero => simp [geomSum]
  | succ n => simp [geomSum]

theorem scan_level_succ_capped (cfg : Config) (src : Source) (lvl : ℕ)
    (cat : String) (hue : Option ℚ) (st : St)
    (h : 10000 ≤ st.counter + 1) :
    scan_level cfg src (lvl + 1) cat hue st =
      addLeaf cat (addNode cfg src cat (lvl + 1) st) := by
  show (if 10000 ≤ (addNode cfg src cat (lvl + 1) st).counter
    then _ else _) = _
  rw [if_pos (by simpa [addNode] using h)]

/-- Claim C3.  For every category source — including cyclic ones — and
every depth, the traversal terminates with a bounded amount of work: if no
category lists more than `b` subcategories, a depth-`lvl` call creates at
most `geomSum b lvl` nodes; every node-creation event of the call happens
at a level at most `lvl` (the depth parameter decreases by one per
recursive call); and at depth zero the call stops immediately, creating
one node and recording it as a leaf. -/
theorem c3_depth_bounds_traversal (cfg : Config) (src : Source) (b : ℕ)
    (hb : ∀ c, (src.sub c).length ≤ b) (lvl : ℕ) (cat : String)
    (hue : Option ℚ) (st : St) :
    (scan_level cfg src lvl cat hue st).counter ≤
      st.counter + geomSum b lvl ∧
    (∃ d, (scan_level cfg src lvl cat hue st).events = st.events ++ d ∧
      ∀ nm l, Ev.nodeAdded nm l ∈ d → l ≤ lvl) ∧
    scan_level cfg src 0 cat hue st = addLeaf cat (addNode cfg src cat 0 st) := by
  refine ⟨?_, ?_, rfl⟩
  · induction lvl generalizing cat hue st with
    | zero => simp [counter_scan_level_zero, geomSum]
    | succ l ih =>
      by_cases h : 10000 ≤ st.counter + 1
      · rw [scan_level_succ_capped cfg src l cat hue st h]
        have : 1 ≤ geomSum b (l + 1) := geomSum_pos b (l + 1)
        simp only [counter_addLeaf]
        show (addNode cfg src cat (l + 1) st).counter ≤ _
        rw [show (addNode cfg src cat (l + 1) st).counter =
          st.counter + 1 from rfl]
        omega
      · rw [scan_level_succ_not_capped cfg src l cat hue st h]
        have hch := counter_le_scanChildren (scan_level cfg src l) cfg cat
          ((sortedSubs src cat).length / 5 + 1) (l + 1)
          (nodeSize cfg (l + 1)) hue (geomSum b l)
          (fun c hu s => ih c hu s) (sortedSubs src cat) 0
          (addNode cfg src cat (l + 1) st)
        have hlen : (sortedSubs src cat).length ≤ b := by
          rw [length_sortedSubs]; exact hb cat
        have hmul : (sortedSubs src cat).length * geomSum b l ≤
            b * geomSum b l := Nat.mul_le_mul_right _ hlen
        have hcnt : (addNode cfg src cat (l + 1) st).counter =
            st.counter + 1 := rfl
        rw [hcnt] at hch
        simp only [geomSum]
        omega
  · induction lvl generalizing cat hue st with
    | zero =>
      refine ⟨[Ev.nodeAdded cat 0], rfl, ?_⟩
      intro nm l hl
      simp only [List.mem_singleton, Ev.nodeAdded.injEq] at hl
      omega
    | succ l ih =>
      by_cases h : 10000 ≤ st.counter + 1
      · rw [scan_level_succ_capped cfg src l cat hue st h]
        refine ⟨[Ev.nodeAdded cat (l + 1)], rfl, ?_⟩
        intro nm ll hl
        simp only [List.mem_singleton, Ev.nodeAdded.injEq] at hl
        omega
      · rw [scan_level_succ_not_capped cfg src l cat hue st h]
        have aux : ∀ (cs : List String) (n : ℕ) (s : St),
            ∃ d, (scanChildren (scan_level cfg src l) cfg cat
              ((sortedSubs src cat).length / 5 + 1) (l + 1)
              (nodeSize cfg (l + 1)) hue n cs s).events = s.events ++ d ∧
              ∀ nm ll, Ev.nodeAdded nm ll ∈ d → ll ≤ l + 1 := by
          intro cs
          induction cs with
          | nil => intro n s; exact ⟨[], by simp [scanChildren], by simp⟩
          | cons c rest ihc =>
            intro n s
            obtain ⟨d2, hd2, hp2⟩ := ih c (some (chooseHue hue n))
              (edgeState cfg cat ((sortedSubs src cat).length / 5 + 1)
                (l + 1) (nodeSize cfg (l + 1)) (chooseHue hue n) n c s)
            obtain ⟨d3, hd3, hp3⟩ := ihc (n + 1)
              (childStep (scan_level cfg src l) cfg cat
                ((sortedSubs src cat).length / 5 + 1) (l + 1)
                (nodeSize cfg (l + 1)) hue n c s)
            refine ⟨Ev.edgeAdded cat c (chooseHue hue n) :: (d2 ++ d3), ?_, ?_⟩
            · show (scanChildren _ _ _ _ _ _ _ (n + 1) rest _).events = _
              rw [hd3]
              have hcs : (childStep (scan_level cfg src l) cfg cat
                  ((sortedSubs src cat).length / 5 + 1) (l + 1)
                  (nodeSize cfg (l + 1)) hue n c s).events =
                  (scan_level cfg src l c (some (chooseHue hue n))
                    (edgeState cfg cat ((sortedSubs src cat).length / 5 + 1)
                      (l + 1) (nodeSize cfg (l + 1)) (chooseHue hue n) n c
                      s)).events := rfl
              rw [hcs, hd2]
              have hes : (edgeState cfg cat
                  ((sortedSubs src cat).length / 5 + 1) (l + 1)
                  (nodeSize cfg (l + 1)) (chooseHue hue n) n c s).events =
                  s.events ++ [Ev.edgeAdded cat c (chooseHue hue n)] := rfl
              rw [hes]
              simp
            · intro nm ll hl
              simp only [List.mem_cons, List.mem_append] at hl
              rcases hl with hl | hl | hl
              · cases hl
              · exact le_trans (hp2 nm ll hl) (Nat.le_succ l)
              · exact hp3 nm ll hl
        obtain ⟨d, hd, hp⟩ := aux (sortedSubs src cat) 0
          (addNode cfg src cat (l + 1) st)
        refine ⟨Ev.nodeAdded cat (l + 1) :: d, ?_, ?_⟩
        · rw [hd]
          simp [addNode]
        · intro nm ll hl
          simp only [List.mem_cons] at hl
          rcases hl with hl | hl
          · cases hl; omega
          · exact hp nm ll hl

/-- Witness for C3: the one-category cyclic source (a category that is its
own subcategory) with branching bound 1, traversed from depth 3, creates at
most `geomSum 1 3 = 4` nodes and stops. -/
theorem c3_depth_bounds_traversal_witness :
    (∀ c, (srcCyc.sub c).length ≤ 1) ∧
    ((scan_level cfgD srcCyc 3 "c" none st0).counter ≤
      st0.counter + geomSum 1 3 ∧
    (∃ d, (scan_level cfgD srcCyc 3 "c" none st0).events = st0.events ++ d ∧
      ∀ nm l, Ev.nodeAdded nm l ∈ d → l ≤ 3) ∧
    scan_level cfgD srcCyc 0 "c" none st0 =
      addLeaf "c" (addNode cfgD srcCyc "c" 0 st0)) := by
  have hb : ∀ c, (srcCyc.sub c).length ≤ 1 := by
    intro c; simp [srcCyc]
  exact ⟨hb, c3_depth_bounds_traversal cfgD srcCyc 1 hb 3 "c" none st0⟩

/-! ### Claim C4: node font size is truncated, not rounded -/

theorem nodes_scan_level (cfg : Config) (src : Source) (lvl : ℕ)
    (cat : String) (hue : Option ℚ) (st : St) :
    ∃ rest, (scan_level cfg src lvl cat hue st).nodes =
      st.nodes ++ node cfg src cat lvl :: rest := by
  cases lvl with
  | zero => exact ⟨[], by simp [scan_level, addLeaf, addNode]⟩
  | succ l =>
    by_cases h : 10000 ≤ st.counter + 1
    · rw [scan_level_succ_capped cfg src l cat hue st h]
      exact ⟨[], by simp [addLeaf, addNode]⟩
    · rw [scan_level_succ_not_capped cfg src l cat hue st h]
      obtain ⟨⟨d, hd⟩, _, _, _, _, _⟩ := ext_scanChildren (scan_level cfg src l)
        cfg cat ((sortedSubs src cat).length / 5 + 1) (l + 1)
        (nodeSize cfg (l + 1)) hue (fun c hu s => ext_scan_level cfg src l c hu s)
        (sortedSubs src cat) 0 (addNode cfg src cat (l + 1) st)
      refine ⟨d, ?_⟩
      rw [hd]
      simp [addNode]

theorem pyInt_of_nonneg (q : ℚ) (h : 0 ≤ q) : pyInt q = ⌊q⌋ := by
  simp [pyInt, not_lt.mpr h]

/-- Claim C4, amended.  For a nonnegative downsize factor, the node created
by a call at depth-remaining `d` is stored at the next free position of the
node list and its font size is `⌊10 * factor ^ d⌋` — Python `int()`
truncates toward zero, it does not round to the nearest integer as the
original claim states (see the counterexample). -/
theorem c4_fontsize_floor (cfg : Config) (src : Source) (lvl : ℕ)
    (cat : String) (hue : Option ℚ) (st : St) (h : 0 ≤ cfg.downsize) :
    ∃ nd rest, (scan_level cfg src lvl cat hue st).nodes =
      st.nodes ++ nd :: rest ∧
      nd.fontsize = ⌊10 * cfg.downsize ^ lvl⌋ := by
  obtain ⟨rest, hrest⟩ := nodes_scan_level cfg src lvl cat hue st
  refine ⟨node cfg src cat lvl, rest, hrest, ?_⟩
  show pyInt (10 * nodeSize cfg lvl) = _
  rw [pyInt_of_nonneg]
  · rfl
  · exact mul_nonneg (by norm_num) (pow_nonneg h lvl)

/-- Witness for C4 at the default configuration: the root node of a
depth-1 traversal with factor 4 has font size `⌊10 * 4⌋ = 40`. -/
theorem c4_fontsize_floor_witness :
    (0 ≤ cfgD.downsize) ∧
    ∃ nd rest, (scan_level cfgD srcPair 1 "r" none st0).nodes =
      st0.nodes ++ nd :: rest ∧
      nd.fontsize = ⌊10 * cfgD.downsize ^ 1⌋ := by
  refine ⟨by norm_num [cfgD], ?_⟩
  exact c4_fontsize_floor cfgD srcPair 1 "r" none st0 (by norm_num [cfgD])

/-- Counterexample to C4 as stated: with downsize factor 1.25 the root of a
depth-2 traversal gets font size `int(10 * 1.25^2) = int(15.625) = 15`,
while rounding to the nearest integer would give 16. -/
theorem c4_cex :
    ∃ nd rest, (scan_level cfg54 srcE 2 "r" none st0).nodes =
      st0.nodes ++ nd :: rest ∧
      nd.fontsize = 15 ∧ round (10 * cfg54.downsize ^ 2) = (16 : ℤ) := by
  obtain ⟨rest, hrest⟩ := nodes_scan_level cfg54 srcE 2 "r" none st0
  refine ⟨node cfg54 srcE "r" 2, rest, hrest, ?_, ?_⟩
  · show pyInt (10 * nodeSize cfg54 2) = 15
    have hv : 10 * nodeSize cfg54 2 = 125 / 8 := by
      norm_num [nodeSize, cfg54]
    rw [hv, pyInt_of_nonneg _ (by norm_num)]
    refine Int.floor_eq_iff.mpr ⟨by norm_num, by norm_num⟩
  · have hv : 10 * cfg54.downsize ^ 2 = 125 / 8 := by
      norm_num [cfg54]
    rw [hv, round_eq]
    rw [show (125 : ℚ) / 8 + 1 / 2 = 129 / 8 by norm_num]
    refine Int.floor_eq_iff.mpr ⟨by norm_num, by norm_num⟩

/-! ### Claim C7: hue distribution and inheritance -/

theorem hue_inherited_scan_level (cfg : Config) (src : Source) :
    ∀ (lvl : ℕ) (cat : String) (h : ℚ) (st : St),
      ∃ d, (scan_level cfg src lvl cat (some h) st).events = st.events ++ d ∧
        ∀ s t h2, Ev.edgeAdded s t h2 ∈ d → h2 = h := by
  intro lvl
  induction lvl with
  | zero =>
    intro cat h st
    refine ⟨[Ev.nodeAdded cat 0], rfl, ?_⟩
    intro s t h2 hmem
    simp at hmem
  | succ l ih =>
    intro cat h st
    by_cases hc : 10000 ≤ st.counter + 1
    · rw [scan_level_succ_capped cfg src l cat (some h) st hc]
      refine ⟨[Ev.nodeAdded cat (l + 1)], rfl, ?_⟩
      intro s t h2 hmem
      simp at hmem
    · rw [scan_level_succ_not_capped cfg src l cat (some h) st hc]
      have aux : ∀ (cs : List String) (n : ℕ) (s : St),
          ∃ d, (scanChildren (scan_level cfg src l) cfg cat
            ((sortedSubs src cat).length / 5 + 1) (l + 1)
            (nodeSize cfg (l + 1)) (some h) n cs s).events = s.events ++ d ∧
            ∀ s2 t h2, Ev.edgeAdded s2 t h2 ∈ d → h2 = h := by
        intro cs
        induction cs with
        | nil => intro n s; exact ⟨[], by simp [scanChildren], by simp⟩
        | cons c rest ihc =>
          intro n s
          obtain ⟨d2, hd2, hp2⟩ := ih c h
            (edgeState cfg cat ((sortedSubs src cat).length / 5 + 1)
              (l + 1) (nodeSize cfg (l + 1)) (chooseHue (some h) n) n c s)
          obtain ⟨d3, hd3, hp3⟩ := ihc (n + 1)
            (childStep (scan_level cfg src l) cfg cat
              ((sortedSubs src cat).length / 5 + 1) (l + 1)
              (nodeSize cfg (l + 1)) (some h) n c s)
          refine ⟨Ev.edgeAdded cat c (chooseHue (some h) n) :: (d2 ++ d3),
            ?_, ?_⟩
          · show (scanChildren _ _ _ _ _ _ _ (n + 1) rest _).events = _
            rw [hd3]
            have hcs : (childStep (scan_level cfg src l) cfg cat
                ((sortedSubs src cat).length / 5 + 1) (l + 1)
                (nodeSize cfg (l + 1)) (some h) n c s).events =
                (scan_level cfg src l c (some (chooseHue (some h) n))
                  (edgeState cfg cat ((sortedSubs src cat).length / 5 + 1)
                    (l + 1) (nodeSize cfg (l + 1)) (chooseHue (some h) n)
                    n c s)).events := rfl
            rw [hcs]
            rw [show chooseHue (some h) n = h from rfl] at *
            rw [hd2]
            have hes : (edgeState cfg cat
                ((sortedSubs src cat).length / 5 + 1) (l + 1)
                (nodeSize cfg (l + 1)) h n c s).events =
                s.events ++ [Ev.edgeAdded cat c h] := rfl
            rw [hes]
            simp
          · intro s2 t h2 hmem
            simp only [List.mem_cons, List.mem_append] at hmem
            rcases hmem with hmem | hmem | hmem
            · cases hmem; rfl
            · exact hp2 s2 t h2 hmem
            · exact hp3 s2 t h2 hmem
      obtain ⟨d, hd, hp⟩ := aux (sortedSubs src cat) 0
        (addNode cfg src cat (l + 1) st)
      refine ⟨Ev.nodeAdded cat (l + 1) :: d, ?_, ?_⟩
      · rw [hd]; simp [addNode]
      · intro s2 t h2 hmem
        simp only [List.mem_cons] at hmem
        rcases hmem with hmem | hmem
        · cases hmem
        · exact hp s2 t h2 hmem

theorem scaleInto_succ (f : ℕ) (q : ℚ) (e : ℤ) :
    scaleInto (f + 1) q e =
      if q < 1 / 2 then scaleInto f (2 * q) (e - 1)
      else if 1 ≤ q then scaleInto f (q / 2) (e + 1)
      else (q, e) := rfl

theorem scaleInto_stop (f : ℕ) (q : ℚ) (e : ℤ) (h1 : ¬q < 1 / 2)
    (h2 : ¬1 ≤ q) : scaleInto (f + 1) q e = (q, e) := by
  rw [scaleInto_succ, if_neg h1, if_neg h2]

theorem scaleInto_up (f : ℕ) (q : ℚ) (e : ℤ) (h1 : ¬q < 1 / 2)
    (h2 : 1 ≤ q) : scaleInto (f + 1) q e = scaleInto f (q / 2) (e + 1) := by
  rw [scaleInto_succ, if_neg h1, if_pos h2]

theorem scaleInto_of_8_16 (f : ℕ) (q : ℚ) (e : ℤ) (h1 : 8 ≤ q)
    (h2 : q < 16) : scaleInto (f + 5) q e = (q / 16, e + 4) := by
  rw [scaleInto_up _ _ _ (by linarith) (by linarith),
    scaleInto_up _ _ _ (by linarith) (by linarith),
    scaleInto_up _ _ _ (by linarith) (by linarith),
    scaleInto_up _ _ _ (by linarith) (by linarith),
    scaleInto_stop _ _ _ (by linarith) (by linarith),
    show q / 2 / 2 / 2 / 2 = q / 16 by ring,
    show e + 1 + 1 + 1 + 1 = e + 4 by ring]

theorem rne_def (x : ℚ) :
    rne x = if x - (⌊x⌋ : ℚ) < 1 / 2 then ⌊x⌋
      else if 1 / 2 < x - (⌊x⌋ : ℚ) then ⌊x⌋ + 1
      else if ⌊x⌋ % 2 = 0 then ⌊x⌋ else ⌊x⌋ + 1 := rfl

theorem rne_low (x : ℚ) (f : ℤ) (hf : ⌊x⌋ = f)
    (hr : x - (f : ℚ) < 1 / 2) : rne x = f := by
  rw [rne_def, hf, if_pos hr]

theorem rne_high (x : ℚ) (f : ℤ) (hf : ⌊x⌋ = f)
    (hr : 1 / 2 < x - (f : ℚ)) : rne x = f + 1 := by
  rw [rne_def, hf, if_neg (by linarith), if_pos hr]

theorem fl53_def (q : ℚ) (h : ¬q ≤ 0) :
    fl53 q = ((rne ((scaleInto 2200 q 0).1 * 2 ^ 53) : ℤ) : ℚ) *
      exp2 ((scaleInto 2200 q 0).2 - 53) := by
  unfold fl53
  rw [if_neg h]

theorem exp2_m53 : exp2 (0 - 53 : ℤ) = 1 / 2 ^ 53 := by
  unfold exp2
  rw [if_neg (by norm_num), show (-(0 - 53 : ℤ)).toNat = 53 from rfl]
  push_cast
  norm_num

theorem exp2_m49 : exp2 (4 - 53 : ℤ) = 1 / 2 ^ 49 := by
  unfold exp2
  rw [if_neg (by norm_num), show (-(4 - 53 : ℤ)).toNat = 49 from rfl]
  push_cast
  norm_num

/-- The double nearest `11/18`: the real `11/18 * 2^53` lies 5/9 above the
integer `5504399544563939`, so rounding goes up. -/
theorem fl119_eval : fl53 (11 / 18) = 5504399544563940 / 2 ^ 53 := by
  rw [fl53_def _ (by norm_num),
    scaleInto_stop 2199 _ _ (by norm_num) (by norm_num)]
  rw [show ((11 / 18 : ℚ), (0 : ℤ)).1 = 11 / 18 from rfl,
    show ((11 / 18 : ℚ), (0 : ℤ)).2 = 0 from rfl]
  rw [rne_high _ 5504399544563939
    (Int.floor_eq_iff.mpr ⟨by norm_num, by norm_num⟩) (by norm_num),
    exp2_m53]
  norm_num

theorem hue0_eval : chooseHue none 0 = 0 := by
  show mod1 (fl53 (fl53 (11 / 18) * ((0 : ℕ) : ℚ))) = 0
  rw [Nat.cast_zero, mul_zero]
  unfold fl53
  rw [if_pos (le_refl (0 : ℚ))]
  unfold mod1
  norm_num

theorem hue1_eval : chooseHue none 1 = 5504399544563940 / 2 ^ 53 := by
  show mod1 (fl53 (fl53 (11 / 18) * ((1 : ℕ) : ℚ))) = _
  rw [Nat.cast_one, mul_one, fl119_eval]
  rw [fl53_def _ (by norm_num),
    scaleInto_stop 2199 _ _ (by norm_num) (by norm_num)]
  rw [show ((5504399544563940 / 2 ^ 53 : ℚ), (0 : ℤ)).1 =
    5504399544563940 / 2 ^ 53 from rfl,
    show ((5504399544563940 / 2 ^ 53 : ℚ), (0 : ℤ)).2 = 0 from rfl]
  rw [rne_low _ 5504399544563940
    (Int.floor_eq_iff.mpr ⟨by norm_num, by norm_num⟩) (by norm_num),
    exp2_m53]
  unfold mod1
  rw [show ⌊(5504399544563940 : ℤ) * (1 / 2 ^ 53 : ℚ)⌋ = 0 from
    Int.floor_eq_iff.mpr ⟨by norm_num, by norm_num⟩]
  norm_num

/-- The hue of child 19: `fl(11/18) * 19` scaled into `[1/2, 1)` ends
3/4 above an even integer, rounds up, and its fractional part is
`344024971535247 / 2^49`, one half `ulp` away from the hue of child 1. -/
theorem hue19_eval : chooseHue none 19 = 344024971535247 / 2 ^ 49 := by
  show mod1 (fl53 (fl53 (11 / 18) * ((19 : ℕ) : ℚ))) = _
  rw [fl119_eval,
    show (5504399544563940 / 2 ^ 53 : ℚ) * ((19 : ℕ) : ℚ) =
      104583591346714860 / 2 ^ 53 by push_cast; norm_num]
  rw [fl53_def _ (by norm_num),
    show (2200 : ℕ) = 2195 + 5 from rfl,
    scaleInto_of_8_16 2195 _ _ (by norm_num) (by norm_num)]
  rw [show ((104583591346714860 / 2 ^ 53 / 16 : ℚ), (0 + 4 : ℤ)).1 =
    104583591346714860 / 2 ^ 53 / 16 from rfl,
    show ((104583591346714860 / 2 ^ 53 / 16 : ℚ), (0 + 4 : ℤ)).2 = 4
      from rfl]
  rw [rne_high _ 6536474459169678
    (Int.floor_eq_iff.mpr ⟨by norm_num, by norm_num⟩) (by norm_num),
    exp2_m49]
  unfold mod1
  rw [show ((6536474459169678 + 1 : ℤ) : ℚ) * (1 / 2 ^ 49) =
    6536474459169679 / 2 ^ 49 by push_cast; norm_num]
  rw [show ⌊(6536474459169679 / 2 ^ 49 : ℚ)⌋ = 11 from
    Int.floor_eq_iff.mpr ⟨by norm_num, by norm_num⟩]
  norm_num

/-- Claim C7 (corrected).  With no inherited hue, the child at ordinal `n`
gets the binary64 evaluation of `(11 / 18 * n) % 1`.  Child 0 gets hue 0
and child 1 gets the double nearest `11/18`, namely
`5504399544563940 / 2^53`: the hues of children 0 and 1 differ by exactly
that value, which lies within `2^-54` of `11/18` but is not equal to it.
The sequence is not exactly periodic with period 18 — `hue 19 ≠ hue 1` in
the program's arithmetic.  Once a hue is inherited, every edge created
anywhere in that subtree carries exactly the inherited hue. -/
theorem c7_hue_binary64 :
    chooseHue none 0 = 0 ∧
    chooseHue none 1 = 5504399544563940 / 2 ^ 53 ∧
    |chooseHue none 1 - 11 / 18| < 1 / 2 ^ 54 ∧
    chooseHue none 1 ≠ 11 / 18 ∧
    chooseHue none 19 ≠ chooseHue none 1 ∧
    (∀ (cfg : Config) (src : Source) (lvl : ℕ) (cat : String) (h : ℚ)
      (st : St),
      ∃ d, (scan_level cfg src lvl cat (some h) st).events =
        st.events ++ d ∧
        ∀ s t h2, Ev.edgeAdded s t h2 ∈ d → h2 = h) := by
  refine ⟨hue0_eval, hue1_eval, ?_, ?_, ?_, hue_inherited_scan_level⟩
  · rw [hue1_eval, abs_lt]
    constructor <;> norm_num
  · rw [hue1_eval]
    norm_num
  · rw [hue19_eval, hue1_eval]
    norm_num

/-- Counterexample to C7 as stated: in the program's binary64 arithmetic
the hue of child 1 is not exactly `11/18` (so the hues of children 0 and 1
do not differ by exactly `11/18`), and the hue sequence does not repeat
with period 18: `hue 19 = 344024971535247/2^49` while
`hue 1 = 5504399544563940/2^53 = 344024971535246.25/2^49`. -/
theorem c7_cex :
    chooseHue none 1 ≠ 11 / 18 ∧
    chooseHue none 1 - chooseHue none 0 ≠ 11 / 18 ∧
    chooseHue none (1 + 18) ≠ chooseHue none 1 ∧
    chooseHue none 19 = 344024971535247 / 2 ^ 49 ∧
    chooseHue none 1 = 5504399544563940 / 2 ^ 53 := by
  refine ⟨?_, ?_, ?_, hue19_eval, hue1_eval⟩
  · rw [hue1_eval]
    norm_num
  · rw [hue1_eval, hue0_eval]
    norm_num
  · show chooseHue none 19 ≠ chooseHue none 1
    rw [hue19_eval, hue1_eval]
    norm_num

/-! ### Claim C2: edge insertion precedes the destination node's creation -/

theorem srcSeen_subset (evs : List Ev) :
    ∀ s1 s2 : List String, (∀ x, x ∈ s1 → x ∈ s2) →
      srcSeen s1 evs = true → srcSeen s2 evs = true := by
  induction evs with
  | nil => intro s1 s2 _ _; rfl
  | cons e t ih =>
    intro s1 s2 hsub h
    cases e with
    | nodeAdded nm l =>
      refine ih (nm :: s1) (nm :: s2) ?_ h
      intro x hx
      rcases List.mem_cons.mp hx with hx | hx
      · exact hx ▸ List.mem_cons_self _ _
      · exact List.mem_cons_of_mem _ (hsub x hx)
    | edgeAdded s d hq =>
      simp only [srcSeen, Bool.and_eq_true] at h ⊢
      exact ⟨List.elem_iff.mpr (hsub s (List.elem_iff.mp h.1)),
        ih _ _ hsub h.2⟩

theorem srcSeen_append (xs ys : List Ev) :
    ∀ seen, srcSeen seen (xs ++ ys) =
      (srcSeen seen xs && srcSeen (collectNodes seen xs) ys) := by
  induction xs with
  | nil => intro seen; simp [srcSeen, collectNodes]
  | cons e t ih =>
    intro seen
    cases e with
    | nodeAdded nm l => simp [srcSeen, collectNodes, ih]
    | edgeAdded s d hq => simp [srcSeen, collectNodes, ih, Bool.and_assoc]

theorem mem_collectNodes (evs : List Ev) :
    ∀ (seen : List String) (x : String), x ∈ seen →
      x ∈ collectNodes seen evs := by
  induction evs with
  | nil => intro seen x hx; exact hx
  | cons e t ih =>
    intro seen x hx
    cases e with
    | nodeAdded nm l => exact ih (nm :: seen) x (List.mem_cons_of_mem _ hx)
    | edgeAdded s d hq => exact ih seen x hx

theorem notEdgeLast_cons (x : Ev) (l : List Ev) (h : l ≠ []) :
    notEdgeLast (x :: l) = notEdgeLast l := by
  cases l with
  | nil => exact absurd rfl h
  | cons y t => cases x <;> rfl

theorem notEdgeLast_append_right (xs : List Ev) {ys : List Ev}
    (h : ys ≠ []) : notEdgeLast (xs ++ ys) = notEdgeLast ys := by
  induction xs with
  | nil => rfl
  | cons x xt ih =>
    rw [List.cons_append, notEdgeLast_cons x (xt ++ ys)
      (by simp [h]), ih]

theorem childAfterEdge_append (xs ys : List Ev)
    (hx : childAfterEdge xs = true) (hnx : notEdgeLast xs = true)
    (hy : childAfterEdge ys = true) : childAfterEdge (xs ++ ys) = true := by
  induction xs with
  | nil => simpa using hy
  | cons e t ih =>
    cases e with
    | nodeAdded nm l =>
      cases t with
      | nil => simpa [childAfterEdge] using hy
      | cons e2 t2 =>
        have hx' : childAfterEdge (e2 :: t2) = true := by
          simpa [childAfterEdge] using hx
        have hnx' : notEdgeLast (e2 :: t2) = true := by
          rwa [notEdgeLast_cons _ _ (by simp)] at hnx
        simpa [childAfterEdge] using ih hx' hnx'
    | edgeAdded s d hq =>
      cases t with
      | nil => simp [notEdgeLast] at hnx
      | cons e2 t2 =>
        simp only [childAfterEdge, Bool.and_eq_true] at hx
        have hnx' : notEdgeLast (e2 :: t2) = true := by
          rwa [notEdgeLast_cons _ _ (by simp)] at hnx
        have hrest := ih hx.2 hnx'
        cases e2 with
        | nodeAdded nm2 l2 =>
          simp only [List.cons_append, childAfterEdge, Bool.and_eq_true]
          exact ⟨by simpa using hx.1, by simpa using hrest⟩
        | edgeAdded s2 d2 h2 => simp at hx

/-- The full trace shape of one `scan_level` call: the emitted segment
starts with the call's own node creation, every edge's source was created
earlier in the run, every edge is immediately followed by the creation of
its destination, and the segment does not end in an edge. -/
theorem trace_scan_level (cfg : Config) (src : Source) :
    ∀ (lvl : ℕ) (cat : String) (hue : Option ℚ) (st : St),
      ∃ d, (scan_level cfg src lvl cat hue st).events = st.events ++ d ∧
        d.head? = some (Ev.nodeAdded cat lvl) ∧
        (∀ seen, srcSeen seen d = true) ∧
        childAfterEdge d = true ∧
        notEdgeLast d = true := by
  intro lvl
  induction lvl with
  | zero =>
    intro cat hue st
    exact ⟨[Ev.nodeAdded cat 0], rfl, rfl, fun seen => rfl, rfl, rfl⟩
  | succ l ih =>
    intro cat hue st
    by_cases hc : 10000 ≤ st.counter + 1
    · rw [scan_level_succ_capped cfg src l cat hue st hc]
      exact ⟨[Ev.nodeAdded cat (l + 1)], rfl, rfl, fun seen => rfl, rfl, rfl⟩
    · rw [scan_level_succ_not_capped cfg src l cat hue st hc]
      have aux : ∀ (cs : List String) (n : ℕ) (s : St),
          ∃ d, (scanChildren (scan_level cfg src l) cfg cat
            ((sortedSubs src cat).length / 5 + 1) (l + 1)
            (nodeSize cfg (l + 1)) hue n cs s).events = s.events ++ d ∧
            (∀ seen, cat ∈ seen → srcSeen seen d = true) ∧
            childAfterEdge d = true ∧
            notEdgeLast d = true := by
        intro cs
        induction cs with
        | nil =>
          intro n s
          exact ⟨[], by simp [scanChildren], fun _ _ => rfl, rfl, rfl⟩
        | cons c rest ihc =>
          intro n s
          obtain ⟨d2, hd2, hh2, hs2, hch2, hnl2⟩ := ih c (some (chooseHue hue n))
            (edgeState cfg cat ((sortedSubs src cat).length / 5 + 1)
              (l + 1) (nodeSize cfg (l + 1)) (chooseHue hue n) n c s)
          obtain ⟨d3, hd3, hs3, hch3, hnl3⟩ := ihc (n + 1)
            (childStep (scan_level cfg src l) cfg cat
              ((sortedSubs src cat).length / 5 + 1) (l + 1)
              (nodeSize cfg (l + 1)) hue n c s)
          obtain ⟨d2h, hd2h⟩ : ∃ d2t, d2 = Ev.nodeAdded c l :: d2t := by
            cases d2 with
            | nil => simp at hh2
            | cons e0 t0 =>
              simp only [List.head?] at hh2
              exact ⟨t0, by rw [Option.some_inj.mp hh2]⟩
          have hd2ne : d2 ≠ [] := by rw [hd2h]; simp
          refine ⟨Ev.edgeAdded cat c (chooseHue hue n) :: (d2 ++ d3),
            ?_, ?_, ?_, ?_⟩
          · show (scanChildren _ _ _ _ _ _ _ (n + 1) rest _).events = _
            rw [hd3]
            have hcs : (childStep (scan_level cfg src l) cfg cat
                ((sortedSubs src cat).length / 5 + 1) (l + 1)
                (nodeSize cfg (l + 1)) hue n c s).events =
                (scan_level cfg src l c (some (chooseHue hue n))
                  (edgeState cfg cat ((sortedSubs src cat).length / 5 + 1)
                    (l + 1) (nodeSize cfg (l + 1)) (chooseHue hue n) n c
                    s)).events := rfl
            rw [hcs, hd2]
            have hes : (edgeState cfg cat
                ((sortedSubs src cat).length / 5 + 1) (l + 1)
                (nodeSize cfg (l + 1)) (chooseHue hue n) n c s).events =
                s.events ++ [Ev.edgeAdded cat c (chooseHue hue n)] := rfl
            rw [hes]
            simp
          · intro seen hseen
            simp only [srcSeen, Bool.and_eq_true]
            refine ⟨List.elem_iff.mpr hseen, ?_⟩
            rw [srcSeen_append]
            simp only [Bool.and_eq_true]
            exact ⟨hs2 seen, hs3 (collectNodes seen d2)
              (mem_collectNodes d2 seen cat hseen)⟩
          · have hca : childAfterEdge (d2 ++ d3) = true :=
              childAfterEdge_append d2 d3 hch2 hnl2 hch3
            rw [hd2h]
            simp only [childAfterEdge, List.cons_append, Bool.and_eq_true]
            constructor
            · simp
            · have h5 := hca
              rw [hd2h] at h5
              simpa [childAfterEdge] using h5
          · rw [notEdgeLast_cons _ _ (by simp [hd2ne])]
            by_cases h3 : d3 = []
            · subst h3
              simpa using hnl2
            · rw [notEdgeLast_append_right d2 h3]
              exact hnl3
      obtain ⟨d, hd, hs, hch, hnl⟩ := aux (sortedSubs src cat) 0
        (addNode cfg src cat (l + 1) st)
      refine ⟨Ev.nodeAdded cat (l + 1) :: d, ?_, rfl, ?_, ?_, ?_⟩
      · rw [hd]; simp [addNode]
      · intro seen
        show srcSeen (cat :: seen) d = true
        exact hs (cat :: seen) (List.mem_cons_self _ _)
      · show childAfterEdge d = true
        exact hch
      · by_cases hdn : d = []
        · subst hdn; rfl
        · rw [notEdgeLast_cons _ _ hdn]
          exact hnl

theorem mem_nodeNames_of_ext {s t : St} (h : Ext s t) :
    ∀ x, x ∈ nodeNames s → x ∈ nodeNames t := by
  obtain ⟨⟨d, hd⟩, _⟩ := h
  intro x hx
  unfold nodeNames at *
  rw [hd, List.map_append]
  exact List.mem_append_left _ hx

theorem cat_mem_nodeNames (cfg : Config) (src : Source) (lvl : ℕ)
    (cat : String) (hue : Option ℚ) (st : St) :
    cat ∈ nodeNames (scan_level cfg src lvl cat hue st) := by
  obtain ⟨rest, hrest⟩ := nodes_scan_level cfg src lvl cat hue st
  unfold nodeNames
  rw [hrest, List.map_append]
  refine List.mem_append_right _ ?_
  simp [node]

theorem edges_endpoints_scan_level (cfg : Config) (src : Source) :
    ∀ (lvl : ℕ) (cat : String) (hue : Option ℚ) (st : St),
      ∀ e ∈ (scan_level cfg src lvl cat hue st).edges,
        e ∈ st.edges ∨
        (e.src ∈ nodeNames (scan_level cfg src lvl cat hue st) ∧
         e.dst ∈ nodeNames (scan_level cfg src lvl cat hue st)) := by
  intro lvl
  induction lvl with
  | zero =>
    intro cat hue st e he
    exact Or.inl he
  | succ l ih =>
    intro cat hue st
    by_cases hc : 10000 ≤ st.counter + 1
    · rw [scan_level_succ_capped cfg src l cat hue st hc]
      intro e he
      exact Or.inl he
    · rw [scan_level_succ_not_capped cfg src l cat hue st hc]
      have aux : ∀ (cs : List String) (n : ℕ) (s : St),
          cat ∈ nodeNames s →
          ∀ e ∈ (scanChildren (scan_level cfg src l) cfg cat
            ((sortedSubs src cat).length / 5 + 1) (l + 1)
            (nodeSize cfg (l + 1)) hue n cs s).edges,
            e ∈ s.edges ∨
            (e.src ∈ nodeNames (scanChildren (scan_level cfg src l) cfg cat
              ((sortedSubs src cat).length / 5 + 1) (l + 1)
              (nodeSize cfg (l + 1)) hue n cs s) ∧
             e.dst ∈ nodeNames (scanChildren (scan_level cfg src l) cfg cat
              ((sortedSubs src cat).length / 5 + 1) (l + 1)
              (nodeSize cfg (l + 1)) hue n cs s)) := by
        intro cs
        induction cs with
        | nil =>
          intro n s _ e he
          exact Or.inl he
        | cons c rest ihc =>
          intro n s hcat e he
          have hext23 : Ext (childStep (scan_level cfg src l) cfg cat
              ((sortedSubs src cat).length / 5 + 1) (l + 1)
              (nodeSize cfg (l + 1)) hue n c s)
              (scanChildren (scan_level cfg src l) cfg cat
                ((sortedSubs src cat).length / 5 + 1) (l + 1)
                (nodeSize cfg (l + 1)) hue (n + 1) rest
                (childStep (scan_level cfg src l) cfg cat
                  ((sortedSubs src cat).length / 5 + 1) (l + 1)
                  (nodeSize cfg (l + 1)) hue n c s)) :=
            ext_scanChildren _ cfg cat _ (l + 1) _ hue
              (fun c2 hu2 s2 => ext_scan_level cfg src l c2 hu2 s2) rest (n + 1) _
          have hnames12 : ∀ x, x ∈ nodeNames s → x ∈ nodeNames
              (childStep (scan_level cfg src l) cfg cat
                ((sortedSubs src cat).length / 5 + 1) (l + 1)
                (nodeSize cfg (l + 1)) hue n c s) := by
            intro x hx
            have h1 : x ∈ nodeNames (edgeState cfg cat
                ((sortedSubs src cat).length / 5 + 1) (l + 1)
                (nodeSize cfg (l + 1)) (chooseHue hue n) n c s) := hx
            exact mem_nodeNames_of_ext
              (ext_scan_level cfg src l c (some (chooseHue hue n)) _) x h1
          have hcat3 : cat ∈ nodeNames (childStep (scan_level cfg src l) cfg
              cat ((sortedSubs src cat).length / 5 + 1) (l + 1)
              (nodeSize cfg (l + 1)) hue n c s) := hnames12 cat hcat
          rcases ihc (n + 1) _ hcat3 e he with h | ⟨h1, h2⟩
          · -- the edge comes from the state after this child step
            have h' : e ∈ (scan_level cfg src l c (some (chooseHue hue n))
                (edgeState cfg cat ((sortedSubs src cat).length / 5 + 1)
                  (l + 1) (nodeSize cfg (l + 1)) (chooseHue hue n) n c
                  s)).edges := h
            rcases ih c (some (chooseHue hue n)) _ e h' with h'' | ⟨h1, h2⟩
            · -- the edge was present before the recursion
              have h3 : e ∈ s.edges ++ [edge cfg cat c n
                  ((sortedSubs src cat).length / 5 + 1) (l + 1)
                  (nodeSize cfg (l + 1)) (chooseHue hue n)] := h''
              rcases List.mem_append.mp h3 with h4 | h4
              · exact Or.inl h4
              · -- the loop's own new edge: source is this node, dest the child
                right
                have he4 : e = edge cfg cat c n
                    ((sortedSubs src cat).length / 5 + 1) (l + 1)
                    (nodeSize cfg (l + 1)) (chooseHue hue n) :=
                  List.mem_singleton.mp h4
                constructor
                · rw [he4]
                  show cat ∈ _
                  exact mem_nodeNames_of_ext hext23 cat hcat3
                · rw [he4]
                  show c ∈ _
                  refine mem_nodeNames_of_ext hext23 c ?_
                  have h5 : c ∈ nodeNames (scan_level cfg src l c
                      (some (chooseHue hue n))
                      (edgeState cfg cat ((sortedSubs src cat).length / 5 + 1)
                        (l + 1) (nodeSize cfg (l + 1)) (chooseHue hue n) n c
                        s)) := cat_mem_nodeNames cfg src l c _ _
                  exact h5
            · -- endpoints already present after the recursion
              right
              have h1' : e.src ∈ nodeNames (childStep (scan_level cfg src l)
                  cfg cat ((sortedSubs src cat).length / 5 + 1) (l + 1)
                  (nodeSize cfg (l + 1)) hue n c s) := h1
              have h2' : e.dst ∈ nodeNames (childStep (scan_level cfg src l)
                  cfg cat ((sortedSubs src cat).length / 5 + 1) (l + 1)
                  (nodeSize cfg (l + 1)) hue n c s) := h2
              exact ⟨mem_nodeNames_of_ext hext23 _ h1',
                mem_nodeNames_of_ext hext23 _ h2'⟩
          · exact Or.inr ⟨h1, h2⟩
      intro e he
      have hcat1 : cat ∈ nodeNames (addNode cfg src cat (l + 1) st) := by
        unfold nodeNames addNode
        simp [node]
      rcases aux (sortedSubs src cat) 0 (addNode cfg src cat (l + 1) st)
        hcat1 e he with h | ⟨h1, h2⟩
      · have h' : e ∈ st.edges := h
        exact Or.inl h'
      · exact Or.inr ⟨h1, h2⟩

/-- Claim C2, amended.  At the moment an edge is inserted its source node
already exists, but the destination node does not yet: it is created by the
recursive call made immediately after the insertion (every edge event is
directly followed by the creation of the edge's destination).  Consequently
when the traversal finishes, every edge's endpoints do exist as nodes. -/
theorem c2_endpoints (cfg : Config) (src : Source) (lvl : ℕ) (cat : String)
    (hue : Option ℚ) :
    (∀ e ∈ (scan_level cfg src lvl cat hue st0).edges,
      e.src ∈ nodeNames (scan_level cfg src lvl cat hue st0) ∧
      e.dst ∈ nodeNames (scan_level cfg src lvl cat hue st0)) ∧
    srcSeen [] (scan_level cfg src lvl cat hue st0).events = true ∧
    childAfterEdge (scan_level cfg src lvl cat hue st0).events = true := by
  obtain ⟨d, hd, _, hs, hch, _⟩ := trace_scan_level cfg src lvl cat hue st0
  have hev : (scan_level cfg src lvl cat hue st0).events = d := by
    rw [hd]; rfl
  refine ⟨?_, ?_, ?_⟩
  · intro e he
    rcases edges_endpoints_scan_level cfg src lvl cat hue st0 e he with h | h
    · simp [st0] at h
    · exact h
  · rw [hev]; exact hs []
  · rw [hev]; exact hch

/-- Counterexample to C2 as stated: in the two-node traversal of `srcPair`
the edge from the root to its child is inserted while only the root node
exists; the child node named by the edge is created only afterwards. -/
theorem c2_cex :
    endpointsSeen [] (scan_level cfgD srcPair 1 "r" none st0).events =
      false := by
  decide

/-! ### Claim C6: the synthetic chain prunes down to the root -/

/-- Claim C6.  On the synthetic graph `root → A → B → C` (with `C` the only
recorded leaf, `A` and `B` single-child single-parent, and the counter
forced above the reduction threshold), the size limiter deletes `C`, `B`
and `A` together with the three edges, leaving exactly the node `root`;
the reverse index is left untouched and the forward lists are emptied. -/
theorem c6_chain_pruned :
    sizeLimit ["C"] stC6 = Except.ok
      ⟨[synthNode "root"], [], 1001,
       [("A", ["root"]), ("B", ["A"]), ("C", ["B"])],
       [("root", []), ("A", []), ("B", [])],
       ["C"], []⟩ := rfl

/-! ### Claim C10: the limiter only deletes single-parent nodes -/

theorem pruneFrom_succ (f : ℕ) (n : String) (st : St) :
    pruneFrom (f + 1) n st =
      (match mget st.rev n with
      | [p] =>
        (match removeFirst n (mget st.fw p) with
        | none => Except.error ()
        | some l =>
          if l.isEmpty then pruneFrom f p (pruneState p n l st)
          else Except.ok (pruneState p n l st))
      | _ => Except.ok st) := rfl

theorem pruneFrom_ok_invariants (fuel : ℕ) :
    ∀ (n : String) (st st' : St), pruneFrom fuel n st = Except.ok st' →
      st'.rev = st.rev ∧ st'.leaves = st.leaves ∧
      st'.counter = st.counter ∧ st'.events = st.events := by
  induction fuel with
  | zero =>
    intro n st st' h
    cases h
    exact ⟨rfl, rfl, rfl, rfl⟩
  | succ f ih =>
    intro n st st' h
    rw [pruneFrom_succ] at h
    split at h
    · next p hrev =>
      split at h
      · exact Except.noConfusion h
      · next l hrem =>
        split at h
        · have h4 := ih p (pruneState p n l st) st' h
          exact ⟨h4.1, h4.2.1, h4.2.2.1, h4.2.2.2⟩
        · cases h
          exact ⟨rfl, rfl, rfl, rfl⟩
    · cases h
      exact ⟨rfl, rfl, rfl, rfl⟩

theorem filter_delNode (n m : String) (h : m ≠ n) (nodes : List Node) :
    (delNode n nodes).filter (fun nd => nd.name = m) =
      nodes.filter (fun nd => nd.name = m) := by
  induction nodes with
  | nil => rfl
  | cons nd t ih =>
    by_cases h1 : nd.name = n
    · have h2 : ¬(nd.name = m) := fun hc => h (hc.symm.trans h1)
      have e1 : delNode n (nd :: t) = delNode n t := by
        simp [delNode, List.filter_cons, h1]
      rw [e1, ih, List.filter_cons_of_neg]
      simp [h2]
    · have e1 : delNode n (nd :: t) = nd :: delNode n t := by
        simp [delNode, List.filter_cons, h1]
      rw [e1]
      by_cases h2 : nd.name = m
      · rw [List.filter_cons_of_pos (by simp [h2]),
          List.filter_cons_of_pos (by simp [h2]), ih]
      · rw [List.filter_cons_of_neg (by simp [h2]),
          List.filter_cons_of_neg (by simp [h2]), ih]

theorem pruneFrom_preserves (fuel : ℕ) :
    ∀ (n : String) (st st' : St), pruneFrom fuel n st = Except.ok st' →
      ∀ m, (mget st.rev m).length ≠ 1 →
        st'.nodes.filter (fun nd => nd.name = m) =
          st.nodes.filter (fun nd => nd.name = m) := by
  induction fuel with
  | zero =>
    intro n st st' h m _
    cases h
    rfl
  | succ f ih =>
    intro n st st' h m hm
    rw [pruneFrom_succ] at h
    split at h
    · next p hrev =>
      have hmn : m ≠ n := by
        intro he
        rw [he, hrev] at hm
        simp at hm
      split at h
      · exact Except.noConfusion h
      · next l hrem =>
        split at h
        · have h2 := ih p _ st' h m (by simpa [pruneState] using hm)
          rw [h2]
          show (delNode n st.nodes).filter _ = _
          exact filter_delNode n m hmn st.nodes
        · cases h
          show (delNode n st.nodes).filter _ = _
          exact filter_delNode n m hmn st.nodes
    · cases h
      rfl

theorem reduceLeaves_nil (fuel : ℕ) (st : St) :
    reduceLeaves fuel [] st = Except.ok st := rfl

theorem reduceLeaves_cons (fuel : ℕ) (x : String) (rest : List String)
    (st : St) :
    reduceLeaves fuel (x :: rest) st =
      (pruneFrom fuel x st).bind (reduceLeaves fuel rest) := by
  cases hp : pruneFrom fuel x st with
  | error e =>
    show (pruneFrom fuel x st) >>= _ = _
    rw [hp]
    rfl
  | ok st1 =>
    show (pruneFrom fuel x st) >>= _ = _
    rw [hp]
    rfl

theorem reduceLeaves_ok_invariants (fuel : ℕ) :
    ∀ (order : List String) (st st' : St),
      reduceLeaves fuel order st = Except.ok st' →
      st'.rev = st.rev ∧ st'.leaves = st.leaves ∧ st'.counter = st.counter := by
  intro order
  induction order with
  | nil =>
    intro st st' h
    cases h
    exact ⟨rfl, rfl, rfl⟩
  | cons x rest ih =>
    intro st st' h
    rw [reduceLeaves_cons] at h
    rcases hp : pruneFrom fuel x st with _ | st1 <;> rw [hp] at h
    · exact Except.noConfusion h
    · have h1 := pruneFrom_ok_invariants fuel x st st1 hp
      have h2 := ih st1 st' h
      exact ⟨h2.1.trans h1.1, h2.2.1.trans h1.2.1, h2.2.2.trans h1.2.2.1⟩

/-- Claim C10.  Whenever the size limiter completes, every node name whose
recorded parent list does not have length exactly one is left untouched in
the graph (its registered nodes are exactly those before the pass); in
particular the traversal root, which has no recorded parent, is never
removed.  Every pruning walk checks `len(self.rev[n]) == 1` before any
deletion and stops at the first node failing it. -/
theorem c10_limiter_preserves_non_single_parent (fuel : ℕ)
    (order : List String) (st st' : St)
    (h : reduceLeaves fuel order st = Except.ok st') (m : String)
    (hm : (mget st.rev m).length ≠ 1) :
    st'.nodes.filter (fun nd => nd.name = m) =
      st.nodes.filter (fun nd => nd.name = m) := by
  induction order generalizing st with
  | nil =>
    cases h
    rfl
  | cons x rest ih =>
    rw [reduceLeaves_cons] at h
    rcases hp : pruneFrom fuel x st with _ | st1 <;> rw [hp] at h
    · exact Except.noConfusion h
    · have hrev1 : st1.rev = st.rev :=
        (pruneFrom_ok_invariants fuel x st st1 hp).1
      have h2 := ih st1 h (by rwa [hrev1])
      rw [h2]
      exact pruneFrom_preserves fuel x st st1 hp m hm

/-- Witness for C10: on the two-node graph `P → X` the pass prunes the
single-parent leaf `X` but the parentless root `P` survives unchanged. -/
theorem c10_limiter_preserves_witness :
    reduceLeaves 2 ["X"] stPX = Except.ok stPXr ∧
    (mget stPX.rev "P").length ≠ 1 ∧
    stPXr.nodes.filter (fun nd => nd.name = "P") =
      stPX.nodes.filter (fun nd => nd.name = "P") := by
  refine ⟨rfl, by decide, ?_⟩
  exact c10_limiter_preserves_non_single_parent 2 ["X"] stPX stPXr rfl "P"
    (by decide)

/-! ### Claim C8: the top-level minimum-length hint -/

/-- Claim C8 is the code's intent but the code misses it when the depth is
supplied on the command line: `argparse` then stores the depth as a string,
and the guard `level != self.args.depth` compares an `int` with a `str`,
which in Python is always true.  With the built-in default (`int` 2) the
top level gets `minlen = 1` on all six edges as claimed, but with the same
depth supplied as the string `"2"` the top level is treated like a deeper
level and gets `minlen = (n mod 2) + 1`. -/
theorem c8_minlen_toplevel :
    (scan_level cfgD src6 2 "r" none st0).edges.map Edge.minlen =
      [1, 1, 1, 1, 1, 1] ∧
    (scan_level cfgStr src6 2 "r" none st0).edges.map Edge.minlen =
      [1, 2, 1, 2, 1, 2] := by
  constructor <;> decide

/-! ### Claim C5: the second limiter run is not a no-op -/

theorem removeFirst_eq_none (x : String) (l : List String) (h : x ∉ l) :
    removeFirst x l = none := by
  induction l with
  | nil => rfl
  | cons y t ih =>
    have hy : ¬(y = x) := fun he => h (he ▸ List.mem_cons_self _ _)
    have ht : x ∉ t := fun hm => h (List.mem_cons_of_mem _ hm)
    simp [removeFirst, hy, ih ht]

theorem removeFirst_cons_self (x : String) (t : List String) :
    removeFirst x (x :: t) = some t := by
  simp [removeFirst]

theorem pruneState_fw (p n : String) (l : List String) (st : St) :
    (pruneState p n l st).fw = mset st.fw p l := rfl

theorem pruneFrom_noop2 (f : ℕ) (n : String) (st : St)
    (h : ∀ p, mget st.rev n ≠ [p]) :
    pruneFrom (f + 1) n st = Except.ok st := by
  rw [pruneFrom_succ]
  rcases hrev : mget st.rev n with _ | ⟨p, _ | ⟨q, r⟩⟩
  · rfl
  · exact absurd hrev (h p)
  · rfl

theorem pruneFrom_step_some (f : ℕ) (n p : String) (st : St)
    (l : List String) (hrev : mget st.rev n = [p])
    (hrem : removeFirst n (mget st.fw p) = some l) :
    pruneFrom (f + 1) n st =
      if l.isEmpty then pruneFrom f p (pruneState p n l st)
      else Except.ok (pruneState p n l st) := by
  rw [pruneFrom_succ, hrev]
  show (match removeFirst n (mget st.fw p) with
    | none => Except.error ()
    | some l => if l.isEmpty then pruneFrom f p (pruneState p n l st)
                else Except.ok (pruneState p n l st)) = _
  rw [hrem]

theorem pruneFrom_step_none (f : ℕ) (n p : String) (st : St)
    (hrev : mget st.rev n = [p])
    (hrem : removeFirst n (mget st.fw p) = none) :
    pruneFrom (f + 1) n st = Except.error () := by
  rw [pruneFrom_succ, hrev]
  show (match removeFirst n (mget st.fw p) with
    | none => Except.error ()
    | some l => if l.isEmpty then pruneFrom f p (pruneState p n l st)
                else Except.ok (pruneState p n l st)) = _
  rw [hrem]

theorem removeFirst_isSome_iff (x : String) (l : List String) :
    (removeFirst x l).isSome ↔ x ∈ l := by
  induction l with
  | nil => simp [removeFirst]
  | cons y t ih =>
    by_cases hy : y = x
    · subst hy
      simp [removeFirst]
    · simp [removeFirst, hy, ih]
      intro he
      exact absurd he.symm hy

theorem removeFirst_mem (x : String) (l l2 : List String)
    (h : removeFirst x l = some l2) : ∀ y, y ∈ l2 → y ∈ l := by
  induction l generalizing l2 with
  | nil => simp [removeFirst] at h
  | cons z t ih =>
    by_cases hz : z = x
    · subst hz
      rw [removeFirst_cons_self] at h
      cases h
      intro y hy
      exact List.mem_cons_of_mem _ hy
    · simp only [removeFirst, hz, if_false, ite_false] at h
      rcases ht : removeFirst x t with _ | t2
      · rw [ht] at h; simp at h
      · rw [ht] at h
        simp only [Option.map_some'] at h
        cases h
        intro y hy
        rcases List.mem_cons.mp hy with hy | hy
        · exact hy ▸ List.mem_cons_self _ _
        · exact List.mem_cons_of_mem _ (ih t2 ht y hy)

theorem removeFirst_length (x : String) (l l2 : List String)
    (h : removeFirst x l = some l2) : l2.length + 1 = l.length := by
  induction l generalizing l2 with
  | nil => simp [removeFirst] at h
  | cons z t ih =>
    by_cases hz : z = x
    · subst hz
      rw [removeFirst_cons_self] at h
      cases h
      rfl
    · simp only [removeFirst, hz, if_false, ite_false] at h
      rcases ht : removeFirst x t with _ | t2
      · rw [ht] at h; simp at h
      · rw [ht] at h
        simp only [Option.map_some'] at h
        cases h
        simp only [List.length_cons]
        rw [ih t2 ht]

theorem removeFirst_singleton (x : String) (l l2 : List String)
    (h : removeFirst x l = some l2) (h2 : l2 = []) : l = [x] := by
  subst h2
  induction l with
  | nil => simp [removeFirst] at h
  | cons z t ih =>
    by_cases hz : z = x
    · subst hz
      rw [removeFirst_cons_self] at h
      cases h
      rfl
    · simp only [removeFirst, hz, if_false, ite_false] at h
      rcases ht : removeFirst x t with _ | t2
      · rw [ht] at h; simp at h
      · rw [ht] at h
        simp at h

theorem removeFirst_comm (a b : String) (hab : a ≠ b) :
    ∀ (l la lb : List String), removeFirst a l = some la →
      removeFirst b l = some lb →
      ∃ l2, removeFirst b la = some l2 ∧ removeFirst a lb = some l2 := by
  intro l
  induction l with
  | nil => intro la lb h; simp [removeFirst] at h
  | cons x t ih =>
    intro la lb ha hb
    by_cases hxa : x = a
    · subst hxa
      rw [removeFirst_cons_self] at ha
      cases ha
      have hxb : ¬(x = b) := hab
      simp only [removeFirst, hxb, if_false, ite_false] at hb
      rcases htb : removeFirst b t with _ | tb
      · rw [htb] at hb; simp at hb
      · rw [htb] at hb
        simp only [Option.map_some'] at hb
        cases hb
        refine ⟨tb, rfl, ?_⟩
        rw [removeFirst_cons_self]
    · by_cases hxb : x = b
      · subst hxb
        rw [removeFirst_cons_self] at hb
        cases hb
        simp only [removeFirst, hxa, if_false, ite_false] at ha
        rcases hta : removeFirst a t with _ | ta
        · rw [hta] at ha; simp at ha
        · rw [hta] at ha
          simp only [Option.map_some'] at ha
          cases ha
          refine ⟨ta, ?_, rfl⟩
          rw [removeFirst_cons_self]
      · simp only [removeFirst, hxa, hxb, if_false, ite_false] at ha hb
        rcases hta : removeFirst a t with _ | ta
        · rw [hta] at ha; simp at ha
        · rcases htb : removeFirst b t with _ | tb
          · rw [htb] at hb; simp at hb
          · rw [hta] at ha
            rw [htb] at hb
            simp only [Option.map_some'] at ha hb
            cases ha
            cases hb
            obtain ⟨l2, h1, h2⟩ := ih ta tb hta htb
            refine ⟨x :: l2, ?_, ?_⟩
            · simp [removeFirst, hxb, h1]
            · simp [removeFirst, hxa, h2]

theorem totalFw_mset (m : List (String × List String)) (k : String)
    (v : List String) :
    totalFw (mset m k v) + (mget m k).length = totalFw m + v.length := by
  induction m with
  | nil => simp [mset, mget, totalFw]
  | cons e t ih =>
    by_cases hk : e.1 = k
    · simp only [mset, mget, hk, if_pos, ite_true, totalFw, List.map_cons,
        List.sum_cons]
      omega
    · simp only [mset, mget, hk, if_neg, ite_false, totalFw, List.map_cons,
        List.sum_cons]
      simp only [totalFw] at ih
      omega

theorem mget_length_le_totalFw (m : List (String × List String))
    (k : String) : (mget m k).length ≤ totalFw m := by
  induction m with
  | nil => simp [mget, totalFw]
  | cons e t ih =>
    by_cases hk : e.1 = k
    · simp only [mget, hk, if_pos, ite_true, totalFw, List.map_cons,
        List.sum_cons]
      omega
    · simp only [mget, hk, if_neg, ite_false, totalFw, List.map_cons,
        List.sum_cons]
      simp only [totalFw] at ih
      omega

theorem totalFw_pruneState (st : St) (n p : String) (l : List String)
    (hrem : removeFirst n (mget st.fw p) = some l) :
    totalFw (pruneState p n l st).fw + 1 = totalFw st.fw := by
  rw [pruneState_fw]
  have h1 := totalFw_mset st.fw p l
  have h2 := removeFirst_length n (mget st.fw p) l hrem
  omega

theorem totalFw_pos_of_rem (st : St) (n p : String) (l : List String)
    (hrem : removeFirst n (mget st.fw p) = some l) :
    1 ≤ totalFw st.fw := by
  have h2 := removeFirst_length n (mget st.fw p) l hrem
  have h3 := mget_length_le_totalFw st.fw p
  omega

theorem pruneFrom_fw_notmem (fuel : ℕ) :
    ∀ (n : String) (st st' : St), pruneFrom fuel n st = Except.ok st' →
      ∀ (x k : String), x ∉ mget st.fw k → x ∉ mget st'.fw k := by
  induction fuel with
  | zero =>
    intro n st st' h x k hx
    cases h
    exact hx
  | succ f ih =>
    intro n st st' h x k hx
    rw [pruneFrom_succ] at h
    split at h
    · next p hrev =>
      split at h
      · exact Except.noConfusion h
      · next l hrem =>
        have hstep : x ∉ mget (pruneState p n l st).fw k := by
          rw [pruneState_fw]
          by_cases hk : k = p
          · subst hk
            rw [mget_mset_self]
            intro hmem
            exact hx (removeFirst_mem n (mget st.fw k) l hrem x hmem)
          · rw [mget_mset_ne _ _ _ _ hk]
            exact hx
        split at h
        · exact ih _ _ _ h x k hstep
        · cases h
          exact hstep
    · cases h
      exact hx

theorem pruneFrom_totalFw_le (fuel : ℕ) :
    ∀ (n : String) (st st' : St), pruneFrom fuel n st = Except.ok st' →
      totalFw st'.fw ≤ totalFw st.fw := by
  induction fuel with
  | zero =>
    intro n st st' h
    cases h
    exact le_refl _
  | succ f ih =>
    intro n st st' h
    rw [pruneFrom_succ] at h
    split at h
    · next p hrev =>
      split at h
      · exact Except.noConfusion h
      · next l hrem =>
        have hdec := totalFw_pruneState st n p l hrem
        split at h
        · have := ih _ _ _ h
          omega
        · cases h
          omega
    · cases h
      exact le_refl _

theorem pruneFrom_fuel_indep : ∀ (fuelA : ℕ) (st : St) (n : String)
    (fuelB : ℕ), totalFw st.fw < fuelA → totalFw st.fw < fuelB →
    pruneFrom fuelA n st = pruneFrom fuelB n st := by
  intro fuelA
  induction fuelA with
  | zero => intro st n fuelB hA; omega
  | succ fa ih =>
    intro st n fuelB hA hB
    cases fuelB with
    | zero => omega
    | succ fb =>
      rcases hrev : mget st.rev n with _ | ⟨p, _ | ⟨q, r⟩⟩
      · rw [pruneFrom_noop2 fa n st (by rw [hrev]; simp),
          pruneFrom_noop2 fb n st (by rw [hrev]; simp)]
      · rcases hrem : removeFirst n (mget st.fw p) with _ | l
        · rw [pruneFrom_step_none fa n p st hrev hrem,
            pruneFrom_step_none fb n p st hrev hrem]
        · rw [pruneFrom_step_some fa n p st l hrev hrem,
            pruneFrom_step_some fb n p st l hrev hrem]
          by_cases hemp : l.isEmpty
          · rw [if_pos hemp, if_pos hemp]
            have hdec := totalFw_pruneState st n p l hrem
            exact ih (pruneState p n l st) p fb (by omega) (by omega)
          · rw [if_neg hemp, if_neg hemp]
      · rw [pruneFrom_noop2 fa n st (by rw [hrev]; simp),
          pruneFrom_noop2 fb n st (by rw [hrev]; simp)]

theorem except_bind_congr {α β : Type} (x : Except Unit α)
    (f g : α → Except Unit β) (h : ∀ s, x = Except.ok s → f s = g s) :
    x.bind f = x.bind g := by
  cases x with
  | error e => rfl
  | ok s => exact h s rfl

theorem delNode_comm (a b : String) (ns : List Node) :
    delNode a (delNode b ns) = delNode b (delNode a ns) := by
  unfold delNode
  rw [List.filter_comm]

theorem delEdge_comm (pa a pb b : String) (es : List Edge) :
    delEdge pa a (delEdge pb b es) = delEdge pb b (delEdge pa a es) := by
  unfold delEdge
  rw [List.filter_comm]

theorem mset_mset_self (m : List (String × List String)) (k : String)
    (v w : List String) : mset (mset m k v) k w = mset m k w := by
  induction m with
  | nil => simp [mset]
  | cons e t ih =>
    by_cases hk : e.1 = k
    · simp [mset, hk]
    · simp [mset, hk, ih]

theorem mset_mset_ne (m : List (String × List String)) (k k' : String)
    (hk : k ≠ k') (hm : mget m k ≠ []) (v w : List String) :
    mset (mset m k v) k' w = mset (mset m k' w) k v := by
  induction m with
  | nil => exact absurd rfl hm
  | cons e t ih =>
    by_cases h1 : e.1 = k
    · have h2 : ¬((k, v).1 = k') := hk
      have h3 : ¬(e.1 = k') := fun hc => hk (h1 ▸ hc ▸ rfl)
      simp [mset, h1, h2, h3]
    · have hm' : mget t k ≠ [] := by
        simpa [mget, h1] using hm
      by_cases h2 : e.1 = k'
      · have h3 : ¬((k', w).1 = k) := Ne.symm hk
        simp [mset, h1, h2, h3]
      · simp [mset, h1, h2, ih hm']

theorem pruneState_swap_ne (pa a pb b : String) (la lb : List String)
    (st : St) (hp : pa ≠ pb) (hm : mget st.fw pa ≠ []) :
    pruneState pb b lb (pruneState pa a la st) =
      pruneState pa a la (pruneState pb b lb st) := by
  unfold pruneState
  simp only [St.mk.injEq, and_true, true_and]
  exact ⟨delNode_comm b a st.nodes, delEdge_comm pb b pa a st.edges,
    mset_mset_ne st.fw pa pb hp hm la lb⟩

theorem pruneState_swap_self (p a b : String) (la lb l2 : List String)
    (st : St) :
    pruneState p b l2 (pruneState p a la st) =
      pruneState p a l2 (pruneState p b lb st) := by
  unfold pruneState
  simp only [St.mk.injEq, and_true, true_and]
  refine ⟨delNode_comm b a st.nodes, delEdge_comm p b p a st.edges, ?_⟩
  rw [mset_mset_self, mset_mset_self]

theorem except_bind_ok {α : Type} (x : Except Unit α) (g : α → Except Unit α)
    (h : ∀ s, x = Except.ok s → g s = Except.ok s) : x.bind g = x := by
  cases x with
  | error e => rfl
  | ok s => exact h s rfl

theorem except_bind_assoc {α β γ : Type} (x : Except Unit α)
    (f : α → Except Unit β) (g : β → Except Unit γ) :
    (x.bind f).bind g = x.bind (fun a => (f a).bind g) := by
  cases x with
  | error e => rfl
  | ok s => rfl

theorem removeFirst_ne_nil {x : String} {l l2 : List String}
    (h : removeFirst x l = some l2) : l ≠ [] := by
  intro h0
  rw [h0] at h
  simp [removeFirst] at h

theorem isEmpty_false_of_mem {x : String} {l : List String} (h : x ∈ l) :
    ¬(l.isEmpty = true) := by
  cases l with
  | nil => simp at h
  | cons y t => intro hc; exact Bool.noConfusion hc

theorem eq_nil_of_isEmpty {l : List String} (h : l.isEmpty = true) :
    l = [] := by
  cases l with
  | nil => rfl
  | cons y t => exact Bool.noConfusion h

theorem mem_of_removeFirst_some {x : String} {l l2 : List String}
    (h : removeFirst x l = some l2) : x ∈ l := by
  apply (removeFirst_isSome_iff x l).1
  rw [h]
  rfl

theorem pruneFrom_comm_noop (f : ℕ) (a b : String) (st : St)
    (h : ∀ p, mget st.rev a ≠ [p]) :
    (pruneFrom (f + 1) a st).bind (pruneFrom (f + 1) b) =
      (pruneFrom (f + 1) b st).bind (pruneFrom (f + 1) a) := by
  rw [pruneFrom_noop2 f a st h]
  have hL : (Except.ok st : Except Unit St).bind (pruneFrom (f + 1) b) =
      pruneFrom (f + 1) b st := rfl
  rw [hL]
  refine (except_bind_ok (pruneFrom (f + 1) b st) _ ?_).symm
  intro s hs
  exact pruneFrom_noop2 f a s (by
    intro p
    rw [(pruneFrom_ok_invariants _ _ _ _ hs).1]
    exact h p)

theorem pruneFrom_comm_err (f : ℕ) (a b pa : String) (st : St)
    (hrevA : mget st.rev a = [pa])
    (hremA : removeFirst a (mget st.fw pa) = none) :
    (pruneFrom (f + 1) a st).bind (pruneFrom (f + 1) b) =
      (pruneFrom (f + 1) b st).bind (pruneFrom (f + 1) a) := by
  rw [pruneFrom_step_none f a pa st hrevA hremA]
  cases hb : pruneFrom (f + 1) b st with
  | error e => rfl
  | ok st' =>
    have hrev' : mget st'.rev a = [pa] := by
      rw [(pruneFrom_ok_invariants _ _ _ _ hb).1, hrevA]
    have hnot : a ∉ mget st.fw pa := by
      intro hmem
      have h2 := (removeFirst_isSome_iff a (mget st.fw pa)).2 hmem
      rw [hremA] at h2
      simp at h2
    have hnot' : a ∉ mget st'.fw pa :=
      pruneFrom_fw_notmem (f + 1) b st st' hb a pa hnot
    show (Except.error () : Except Unit St) = pruneFrom (f + 1) a st'
    rw [pruneFrom_step_none f a pa st' hrev'
      (removeFirst_eq_none a (mget st'.fw pa) hnot')]

theorem pruneFrom_comm_climb (f : ℕ) (a b pa pb : String) (lb : List String)
    (st : St)
    (IH : ∀ st' : St, totalFw st'.fw < totalFw st.fw →
      ∀ (fuel : ℕ) (x y : String), totalFw st'.fw < fuel →
        (pruneFrom fuel x st').bind (pruneFrom fuel y) =
          (pruneFrom fuel y st').bind (pruneFrom fuel x))
    (hpp : pa ≠ pb)
    (hrevA : mget st.rev a = [pa]) (hrevB : mget st.rev b = [pb])
    (hremA : removeFirst a (mget st.fw pa) = some [])
    (hremB : removeFirst b (mget st.fw pb) = some lb)
    (hlb : ¬(lb.isEmpty = true))
    (hfuel : totalFw st.fw < f + 1) :
    (pruneFrom (f + 1) a st).bind (pruneFrom (f + 1) b) =
      (pruneFrom (f + 1) b st).bind (pruneFrom (f + 1) a) := by
  have hd1 : totalFw (pruneState pa a [] st).fw + 1 = totalFw st.fw :=
    totalFw_pruneState st a pa [] hremA
  obtain ⟨g, rfl⟩ : ∃ g, f = g + 1 := ⟨f - 1, by omega⟩
  have hmA : mget st.fw pa ≠ [] := removeFirst_ne_nil hremA
  have hfwA : mget (pruneState pa a [] st).fw pb = mget st.fw pb := by
    rw [pruneState_fw, mget_mset_ne st.fw pa pb [] (Ne.symm hpp)]
  have hfwB : mget (pruneState pb b lb st).fw pa = mget st.fw pa := by
    rw [pruneState_fw, mget_mset_ne st.fw pb pa lb hpp]
  have hA : pruneFrom (g + 1 + 1) a st =
      pruneFrom (g + 1) pa (pruneState pa a [] st) := by
    rw [pruneFrom_step_some (g + 1) a pa st [] hrevA hremA]
    rfl
  have hB : pruneFrom (g + 1 + 1) b st =
      Except.ok (pruneState pb b lb st) := by
    rw [pruneFrom_step_some (g + 1) b pb st lb hrevB hremB, if_neg hlb]
  have hbA : pruneFrom (g + 1) b (pruneState pa a [] st) =
      Except.ok (pruneState pb b lb (pruneState pa a [] st)) := by
    rw [pruneFrom_step_some g b pb (pruneState pa a [] st) lb hrevB
      (by rw [hfwA]; exact hremB), if_neg hlb]
  have hRA : pruneFrom (g + 1 + 1) a (pruneState pb b lb st) =
      pruneFrom (g + 1) pa (pruneState pa a [] (pruneState pb b lb st)) := by
    rw [pruneFrom_step_some (g + 1) a pa (pruneState pb b lb st) []
      hrevA (by rw [hfwB]; exact hremA)]
    rfl
  have hswap : pruneState pb b lb (pruneState pa a [] st) =
      pruneState pa a [] (pruneState pb b lb st) :=
    pruneState_swap_ne pa a pb b [] lb st hpp hmA
  calc (pruneFrom (g + 1 + 1) a st).bind (pruneFrom (g + 1 + 1) b)
      = (pruneFrom (g + 1) pa (pruneState pa a [] st)).bind
          (pruneFrom (g + 1 + 1) b) := by rw [hA]
    _ = (pruneFrom (g + 1) pa (pruneState pa a [] st)).bind
          (pruneFrom (g + 1) b) := by
        apply except_bind_congr
        intro s hs
        have hle := pruneFrom_totalFw_le (g + 1) pa _ s hs
        exact pruneFrom_fuel_indep (g + 1 + 1) s b (g + 1)
          (by omega) (by omega)
    _ = (pruneFrom (g + 1) b (pruneState pa a [] st)).bind
          (pruneFrom (g + 1) pa) :=
        IH (pruneState pa a [] st) (by omega) (g + 1) pa b (by omega)
    _ = pruneFrom (g + 1) pa (pruneState pb b lb (pruneState pa a [] st)) := by
        rw [hbA]
        rfl
    _ = pruneFrom (g + 1) pa (pruneState pa a [] (pruneState pb b lb st)) := by
        rw [hswap]
    _ = (pruneFrom (g + 1 + 1) b st).bind (pruneFrom (g + 1 + 1) a) := by
        rw [hB]
        show _ = pruneFrom (g + 1 + 1) a (pruneState pb b lb st)
        rw [hRA]

theorem pruneFrom_comm_climb2 (f : ℕ) (a b pa pb : String) (st : St)
    (IH : ∀ st' : St, totalFw st'.fw < totalFw st.fw →
      ∀ (fuel : ℕ) (x y : String), totalFw st'.fw < fuel →
        (pruneFrom fuel x st').bind (pruneFrom fuel y) =
          (pruneFrom fuel y st').bind (pruneFrom fuel x))
    (hpp : pa ≠ pb)
    (hrevA : mget st.rev a = [pa]) (hrevB : mget st.rev b = [pb])
    (hremA : removeFirst a (mget st.fw pa) = some [])
    (hremB : removeFirst b (mget st.fw pb) = some [])
    (hfuel : totalFw st.fw < f + 1) :
    (pruneFrom (f + 1) a st).bind (pruneFrom (f + 1) b) =
      (pruneFrom (f + 1) b st).bind (pruneFrom (f + 1) a) := by
  have hd1 : totalFw (pruneState pa a [] st).fw + 1 = totalFw st.fw :=
    totalFw_pruneState st a pa [] hremA
  have hmA : mget st.fw pa ≠ [] := removeFirst_ne_nil hremA
  have hfwA : mget (pruneState pa a [] st).fw pb = mget st.fw pb := by
    rw [pruneState_fw, mget_mset_ne st.fw pa pb [] (Ne.symm hpp)]
  have hfwB : mget (pruneState pb b [] st).fw pa = mget st.fw pa := by
    rw [pruneState_fw, mget_mset_ne st.fw pb pa [] hpp]
  have hremA' : removeFirst b (mget (pruneState pa a [] st).fw pb) =
      some [] := by rw [hfwA]; exact hremB
  have hd2 : totalFw (pruneState pb b []
      (pruneState pa a [] st)).fw + 1 = totalFw (pruneState pa a [] st).fw :=
    totalFw_pruneState (pruneState pa a [] st) b pb [] hremA'
  have hpos2 : 1 ≤ totalFw (pruneState pa a [] st).fw :=
    totalFw_pos_of_rem (pruneState pa a [] st) b pb [] hremA'
  obtain ⟨g, rfl⟩ : ∃ g, f = g + 2 := ⟨f - 2, by omega⟩
  have hswap : pruneState pb b [] (pruneState pa a [] st) =
      pruneState pa a [] (pruneState pb b [] st) :=
    pruneState_swap_ne pa a pb b [] [] st hpp hmA
  have hA : pruneFrom (g + 2 + 1) a st =
      pruneFrom (g + 2) pa (pruneState pa a [] st) := by
    rw [pruneFrom_step_some (g + 2) a pa st [] hrevA hremA]
    rfl
  have hB : pruneFrom (g + 2 + 1) b st =
      pruneFrom (g + 2) pb (pruneState pb b [] st) := by
    rw [pruneFrom_step_some (g + 2) b pb st [] hrevB hremB]
    rfl
  have hbA : pruneFrom (g + 2) b (pruneState pa a [] st) =
      pruneFrom (g + 1) pb (pruneState pb b [] (pruneState pa a [] st)) := by
    rw [pruneFrom_step_some (g + 1) b pb (pruneState pa a [] st) []
      hrevB hremA']
    rfl
  have haB : pruneFrom (g + 2) a (pruneState pb b [] st) =
      pruneFrom (g + 1) pa (pruneState pa a [] (pruneState pb b [] st)) := by
    rw [pruneFrom_step_some (g + 1) a pa (pruneState pb b [] st) []
      hrevA (by rw [hfwB]; exact hremA)]
    rfl
  calc (pruneFrom (g + 2 + 1) a st).bind (pruneFrom (g + 2 + 1) b)
      = (pruneFrom (g + 2) pa (pruneState pa a [] st)).bind
          (pruneFrom (g + 2 + 1) b) := by rw [hA]
    _ = (pruneFrom (g + 2) pa (pruneState pa a [] st)).bind
          (pruneFrom (g + 2) b) := by
        apply except_bind_congr
        intro s hs
        have hle := pruneFrom_totalFw_le (g + 2) pa _ s hs
        exact pruneFrom_fuel_indep (g + 2 + 1) s b (g + 2)
          (by omega) (by omega)
    _ = (pruneFrom (g + 2) b (pruneState pa a [] st)).bind
          (pruneFrom (g + 2) pa) :=
        IH (pruneState pa a [] st) (by omega) (g + 2) pa b (by omega)
    _ = (pruneFrom (g + 1) pb
          (pruneState pb b [] (pruneState pa a [] st))).bind
          (pruneFrom (g + 2) pa) := by rw [hbA]
    _ = (pruneFrom (g + 1) pb
          (pruneState pb b [] (pruneState pa a [] st))).bind
          (pruneFrom (g + 1) pa) := by
        apply except_bind_congr
        intro s hs
        have hle := pruneFrom_totalFw_le (g + 1) pb _ s hs
        exact pruneFrom_fuel_indep (g + 2) s pa (g + 1)
          (by omega) (by omega)
    _ = (pruneFrom (g + 1) pa
          (pruneState pb b [] (pruneState pa a [] st))).bind
          (pruneFrom (g + 1) pb) :=
        IH (pruneState pb b [] (pruneState pa a [] st)) (by omega)
          (g + 1) pb pa (by omega)
    _ = (pruneFrom (g + 1) pa
          (pruneState pa a [] (pruneState pb b [] st))).bind
          (pruneFrom (g + 1) pb) := by rw [hswap]
    _ = (pruneFrom (g + 1) pa
          (pruneState pa a [] (pruneState pb b [] st))).bind
          (pruneFrom (g + 2) pb) := by
        apply except_bind_congr
        intro s hs
        have hle := pruneFrom_totalFw_le (g + 1) pa _ s hs
        have hdB : totalFw (pruneState pb b [] st).fw + 1 = totalFw st.fw :=
          totalFw_pruneState st b pb [] hremB
        have hd3 : totalFw (pruneState pa a []
            (pruneState pb b [] st)).fw + 1 =
            totalFw (pruneState pb b [] st).fw :=
          totalFw_pruneState (pruneState pb b [] st) a pa []
            (by rw [hfwB]; exact hremA)
        exact (pruneFrom_fuel_indep (g + 2) s pb (g + 1)
          (by omega) (by omega)).symm
    _ = (pruneFrom (g + 2) a (pruneState pb b [] st)).bind
          (pruneFrom (g + 2) pb) := by rw [haB]
    _ = (pruneFrom (g + 2) pb (pruneState pb b [] st)).bind
          (pruneFrom (g + 2) a) := by
        have hdB : totalFw (pruneState pb b [] st).fw + 1 = totalFw st.fw :=
          totalFw_pruneState st b pb [] hremB
        exact IH (pruneState pb b [] st) (by omega) (g + 2) a pb (by omega)
    _ = (pruneFrom (g + 2 + 1) b st).bind (pruneFrom (g + 2 + 1) a) := by
        rw [hB]
        apply except_bind_congr
        intro s hs
        have hle := pruneFrom_totalFw_le (g + 2) pb _ s hs
        have hdB : totalFw (pruneState pb b [] st).fw + 1 = totalFw st.fw :=
          totalFw_pruneState st b pb [] hremB
        exact (pruneFrom_fuel_indep (g + 2 + 1) s a (g + 2)
          (by omega) (by omega)).symm

theorem pruneFrom_comm : ∀ (N : ℕ) (st : St), totalFw st.fw ≤ N →
    ∀ (fuel : ℕ) (a b : String), totalFw st.fw < fuel →
      (pruneFrom fuel a st).bind (pruneFrom fuel b) =
        (pruneFrom fuel b st).bind (pruneFrom fuel a) := by
  intro N
  induction N using Nat.strong_induction_on with
  | _ N ihN =>
    intro st hN fuel a b hfuel
    obtain ⟨f, rfl⟩ : ∃ f, fuel = f + 1 := ⟨fuel - 1, by omega⟩
    have IH : ∀ st' : St, totalFw st'.fw < totalFw st.fw →
        ∀ (fuel' : ℕ) (x y : String), totalFw st'.fw < fuel' →
          (pruneFrom fuel' x st').bind (pruneFrom fuel' y) =
            (pruneFrom fuel' y st').bind (pruneFrom fuel' x) := by
      intro st' h' fuel' x y hf'
      exact ihN (totalFw st'.fw) (by omega) st' (le_refl _) fuel' x y hf'
    by_cases hab : a = b
    · subst hab; rfl
    rcases hrevA : mget st.rev a with _ | ⟨pa, _ | ⟨qa, ra⟩⟩
    · exact pruneFrom_comm_noop f a b st (by intro p; rw [hrevA]; simp)
    · rcases hrevB : mget st.rev b with _ | ⟨pb, _ | ⟨qb, rb⟩⟩
      · exact (pruneFrom_comm_noop f b a st
          (by intro p; rw [hrevB]; simp)).symm
      · rcases hremA : removeFirst a (mget st.fw pa) with _ | la
        · exact pruneFrom_comm_err f a b pa st hrevA hremA
        · rcases hremB : removeFirst b (mget st.fw pb) with _ | lb
          · exact (pruneFrom_comm_err f b a pb st hrevB hremB).symm
          · by_cases hpp : pa = pb
            · subst hpp
              obtain ⟨l2, h2a, h2b⟩ :=
                removeFirst_comm a b hab (mget st.fw pa) la lb hremA hremB
              have hla : ¬(la.isEmpty = true) :=
                isEmpty_false_of_mem (mem_of_removeFirst_some h2a)
              have hlb : ¬(lb.isEmpty = true) :=
                isEmpty_false_of_mem (mem_of_removeFirst_some h2b)
              have hA : pruneFrom (f + 1) a st =
                  Except.ok (pruneState pa a la st) := by
                rw [pruneFrom_step_some f a pa st la hrevA hremA, if_neg hla]
              have hB : pruneFrom (f + 1) b st =
                  Except.ok (pruneState pa b lb st) := by
                rw [pruneFrom_step_some f b pa st lb hrevB hremB, if_neg hlb]
              rw [hA, hB]
              show pruneFrom (f + 1) b (pruneState pa a la st) =
                pruneFrom (f + 1) a (pruneState pa b lb st)
              have hremA2 : removeFirst b
                  (mget (pruneState pa a la st).fw pa) = some l2 := by
                rw [pruneState_fw, mget_mset_self]
                exact h2a
              have hremB2 : removeFirst a
                  (mget (pruneState pa b lb st).fw pa) = some l2 := by
                rw [pruneState_fw, mget_mset_self]
                exact h2b
              rw [pruneFrom_step_some f b pa (pruneState pa a la st) l2
                hrevB hremA2,
                pruneFrom_step_some f a pa (pruneState pa b lb st) l2
                hrevA hremB2,
                pruneState_swap_self pa a b la lb l2 st]
            · by_cases hla : la.isEmpty = true
              · by_cases hlb : lb.isEmpty = true
                · rw [eq_nil_of_isEmpty hla] at hremA
                  rw [eq_nil_of_isEmpty hlb] at hremB
                  exact pruneFrom_comm_climb2 f a b pa pb st IH hpp
                    hrevA hrevB hremA hremB hfuel
                · rw [eq_nil_of_isEmpty hla] at hremA
                  exact pruneFrom_comm_climb f a b pa pb lb st IH hpp
                    hrevA hrevB hremA hremB hlb hfuel
              · by_cases hlb : lb.isEmpty = true
                · rw [eq_nil_of_isEmpty hlb] at hremB
                  exact (pruneFrom_comm_climb f b a pb pa la st IH
                    (Ne.symm hpp) hrevB hrevA hremB hremA hla hfuel).symm
                · have hmA : mget st.fw pa ≠ [] := removeFirst_ne_nil hremA
                  have hA : pruneFrom (f + 1) a st =
                      Except.ok (pruneState pa a la st) := by
                    rw [pruneFrom_step_some f a pa st la hrevA hremA,
                      if_neg hla]
                  have hB : pruneFrom (f + 1) b st =
                      Except.ok (pruneState pb b lb st) := by
                    rw [pruneFrom_step_some f b pb st lb hrevB hremB,
                      if_neg hlb]
                  rw [hA, hB]
                  show pruneFrom (f + 1) b (pruneState pa a la st) =
                    pruneFrom (f + 1) a (pruneState pb b lb st)
                  have hfwA : mget (pruneState pa a la st).fw pb =
                      mget st.fw pb := by
                    rw [pruneState_fw, mget_mset_ne st.fw pa pb la
                      (Ne.symm hpp)]
                  have hfwB : mget (pruneState pb b lb st).fw pa =
                      mget st.fw pa := by
                    rw [pruneState_fw, mget_mset_ne st.fw pb pa lb hpp]
                  rw [pruneFrom_step_some f b pb (pruneState pa a la st) lb
                    hrevB (by rw [hfwA]; exact hremB), if_neg hlb,
                    pruneFrom_step_some f a pa (pruneState pb b lb st) la
                    hrevA (by rw [hfwB]; exact hremA), if_neg hla,
                    pruneState_swap_ne pa a pb b la lb st hpp hmA]
      · exact (pruneFrom_comm_noop f b a st
          (by intro p; rw [hrevB]; simp)).symm
    · exact pruneFrom_comm_noop f a b st (by intro p; rw [hrevA]; simp)

theorem reduceLeaves_perm (fuel : ℕ) (o1 o2 : List String)
    (hp : o1.Perm o2) : ∀ st : St, totalFw st.fw < fuel →
      reduceLeaves fuel o1 st = reduceLeaves fuel o2 st := by
  induction hp with
  | nil => intro st h; rfl
  | cons x hpt ih =>
    intro st hst
    rw [reduceLeaves_cons, reduceLeaves_cons]
    apply except_bind_congr
    intro s hs
    have hle := pruneFrom_totalFw_le fuel x st s hs
    exact ih s (by omega)
  | swap x y l =>
    intro st hst
    rw [reduceLeaves_cons, reduceLeaves_cons]
    have e1 : ∀ s : St, reduceLeaves fuel (x :: l) s =
        (pruneFrom fuel x s).bind (reduceLeaves fuel l) :=
      fun s => reduceLeaves_cons fuel x l s
    have e2 : ∀ s : St, reduceLeaves fuel (y :: l) s =
        (pruneFrom fuel y s).bind (reduceLeaves fuel l) :=
      fun s => reduceLeaves_cons fuel y l s
    calc (pruneFrom fuel y st).bind (reduceLeaves fuel (x :: l))
        = (pruneFrom fuel y st).bind
            (fun s => (pruneFrom fuel x s).bind (reduceLeaves fuel l)) := by
          exact except_bind_congr _ _ _ (fun s _ => e1 s)
      _ = ((pruneFrom fuel y st).bind (pruneFrom fuel x)).bind
            (reduceLeaves fuel l) :=
          (except_bind_assoc _ _ _).symm
      _ = ((pruneFrom fuel x st).bind (pruneFrom fuel y)).bind
            (reduceLeaves fuel l) := by
          rw [pruneFrom_comm (totalFw st.fw) st (le_refl _) fuel y x hst]
      _ = (pruneFrom fuel x st).bind
            (fun s => (pruneFrom fuel y s).bind (reduceLeaves fuel l)) :=
          except_bind_assoc _ _ _
      _ = (pruneFrom fuel x st).bind (reduceLeaves fuel (y :: l)) := by
          exact except_bind_congr _ _ _ (fun s _ => (e2 s).symm)
  | trans hp1 hp2 ih1 ih2 =>
    intro st hst
    rw [ih1 st hst, ih2 st hst]

/-- Claim C9.  The embedded run is deterministic: the only unordered
iteration of the program is the size limiter's `for n in self.leaves:` over
a Python set, and the run's output does not depend on the order in which
that set is iterated.  For any two iteration-order choices that enumerate
the same leaves (as permutations of each other), the complete run —
traversal, size limiting and the emitted node and edge lists — produces
identical output, including whether it raises; hence two runs on the same
source and configuration are byte-identical. -/
theorem c9_output_order_independent (cfg : Config) (src : Source)
    (root : String) (ord1 ord2 : List String → List String)
    (h : ∀ l : List String, (ord1 l).Perm (ord2 l)) :
    run cfg src root ord1 = run cfg src root ord2 := by
  unfold run
  have hsl : sizeLimit
      (ord1 (scan_level cfg src cfg.depthArg.toNat root none st0).leaves)
      (scan_level cfg src cfg.depthArg.toNat root none st0) =
      sizeLimit
      (ord2 (scan_level cfg src cfg.depthArg.toNat root none st0).leaves)
      (scan_level cfg src cfg.depthArg.toNat root none st0) := by
    unfold sizeLimit
    by_cases hc : 1000 <
        (scan_level cfg src cfg.depthArg.toNat root none st0).counter
    · rw [if_pos hc, if_pos hc]
      exact reduceLeaves_perm _ _ _ (h _) _ (by omega)
    · rw [if_neg hc, if_neg hc]
  simp only [hsl]

/-- Witness for C9: forward and reversed iteration of the leaves give the
same output on a concrete run. -/
theorem c9_output_order_independent_witness :
    run cfgD srcE "r" (fun l => l) = run cfgD srcE "r" (fun l => l.reverse) :=
  c9_output_order_independent cfgD srcE "r" (fun l => l)
    (fun l => l.reverse) (fun l => (List.reverse_perm l).symm)

end Wikigraphviz
